import Mathlib

/-!
Shallow embedding of the knowledge-graph analysis engine (chunker, label
normalizer, topic graph builder, gap detector, contradiction detector,
document deletion) together with proofs of the specification claims.

JavaScript strings are modelled as `List Char`; JavaScript numbers that
hold integer counts are modelled as `Nat`/`Int`, and fractional
significance/confidence values as `ℚ`.  Record fields produced by
side effects in the source (`createId`, `Date.now()`) are omitted from the
embedded records, since no claim mentions them.
-/

namespace KG

/-- JavaScript strings are sequences of (UTF-16) characters. -/
abbrev Str := List Char

/-- The character class of the JavaScript regex `\s` (also the set trimmed by
`String.prototype.trim`): ASCII whitespace, NBSP, BOM and the Unicode space
separators. -/
def isJsWhitespace (c : Char) : Bool :=
  let n := c.toNat
  n = 0x20 || n = 0x9 || n = 0xa || n = 0xd || n = 0xb || n = 0xc ||
  n = 0xa0 || n = 0x1680 || (0x2000 ≤ n && n ≤ 0x200a) ||
  n = 0x2028 || n = 0x2029 || n = 0x202f || n = 0x205f || n = 0x3000 || n = 0xfeff

/-- JavaScript `String.prototype.toLowerCase`, restricted to the ASCII range
(the characters the claims exercise). -/
def jsToLower (c : Char) : Char :=
  if 'A' ≤ c ∧ c ≤ 'Z' then Char.ofNat (c.toNat + 32) else c

/-- `text.toLowerCase()`. -/
def lowerStr (l : Str) : Str := l.map jsToLower

/-- `text.trim()`: remove leading and trailing JS whitespace. -/
def jsTrim (l : Str) : Str :=
  ((l.dropWhile isJsWhitespace).reverse.dropWhile isJsWhitespace).reverse

/-- Helper for `replace(/\s+/g, " ")`: the flag records whether the previous
character was part of a whitespace run that has already emitted its `' '`. -/
def collapseAux : Bool → Str → Str
  | _, [] => []
  | inRun, c :: rest =>
    if isJsWhitespace c then
      if inRun then collapseAux true rest else ' ' :: collapseAux true rest
    else c :: collapseAux false rest

/-- `text.replace(/\s+/g, " ")`: collapse every maximal whitespace run to a
single space. -/
def collapseWs (l : Str) : Str := collapseAux false l

/-- `text.slice(start, stop)` for in-range offsets. -/
def slice (l : Str) (start stop : Nat) : Str := (l.drop start).take (stop - start)

/-! ## Chunker (src/lib/pdf/chunker.ts) -/

/-- Options record of the chunker. -/
structure ChunkerOptions where
  chunkSize : Nat
  chunkOverlap : Nat
deriving DecidableEq, Repr

/-- `DEFAULT_OPTIONS` of the chunker. -/
def DEFAULT_OPTIONS : ChunkerOptions := ⟨1500, 200⟩

/-- A `TextChunk` record; the randomly generated `id` field is omitted. -/
structure TextChunk where
  documentId : Str
  content : Str
  startOffset : Nat
  endOffset : Nat
  chunkIndex : Nat
deriving DecidableEq, Repr

/-- `searchRegion.lastIndexOf("\n\n")`: the last index at which the
two-character pattern starts, `none` when absent. -/
def lastIndexOfPara : Str → Option Nat
  | [] => none
  | [_] => none
  | a :: b :: rest =>
    match lastIndexOfPara (b :: rest) with
    | some i => some (i + 1)
    | none => if a = '\n' ∧ b = '\n' then some 0 else none

/-- Length of the (unique, greedy) match of `/[\s\S]*[.!?][\s]/` against a
region, i.e. the largest `k` such that the region's characters at positions
`k-2`, `k-1` are a sentence terminator followed by whitespace. -/
def sentenceMatchLen : Str → Option Nat
  | [] => none
  | [_] => none
  | a :: b :: rest =>
    match sentenceMatchLen (b :: rest) with
    | some k => some (k + 1)
    | none =>
      if (a = '.' ∨ a = '!' ∨ a = '?') ∧ isJsWhitespace b then some 2 else none

/-- `searchRegion.lastIndexOf(" ")`. -/
def lastIndexOfSpace : Str → Option Nat
  | [] => none
  | a :: rest =>
    match lastIndexOfSpace rest with
    | some i => some (i + 1)
    | none => if a = ' ' then some 0 else none

/-- `findBreakPoint` of chunker.ts: search backwards from `target` (window of
200 characters) for a paragraph break, then a sentence end, then a space;
fall back to `target` itself.  `target - 200` uses `Nat` subtraction, which
agrees with the source's `Math.max(0, target - 200)`. -/
def findBreakPoint (text : Str) (target : Nat) : Nat :=
  if target ≥ text.length then text.length
  else
    match lastIndexOfPara (slice text (target - 200) target) with
    | some paraIndex => (target - 200) + paraIndex + 2
    | none =>
      match sentenceMatchLen (slice text (target - 200) target) with
      | some k => (target - 200) + k
      | none =>
        match lastIndexOfSpace (slice text (target - 200) target) with
        | some spaceIndex => (target - 200) + spaceIndex + 1
        | none => target

/-- The `endOffset` candidate of one loop iteration, before the progress
guard: the text end when `rawEnd` reaches it, a break point otherwise. -/
def rawChunkEnd (opts : ChunkerOptions) (text : Str) (s : Nat) : Nat :=
  if s + opts.chunkSize ≥ text.length then text.length
  else findBreakPoint text (s + opts.chunkSize)

/-- One iteration step of the chunker's `while` loop: the chosen `endOffset`
for a window starting at `s` (including the progress guard of the source). -/
def chunkEnd (opts : ChunkerOptions) (text : Str) (s : Nat) : Nat :=
  if rawChunkEnd opts text s ≤ s then min (s + opts.chunkSize) text.length
  else rawChunkEnd opts text s

/-- The chunker's `while` loop.  The source loop advances `startOffset` by at
least one character per iteration, so `text.length` iterations always
suffice; the `fuel` argument makes that termination argument structural.
`Nat` subtraction makes `max (e - s - overlap) 1` agree with the source's
`Math.max(endOffset - startOffset - chunkOverlap, 1)` also when the
JavaScript difference is negative. -/
def chunkLoop (opts : ChunkerOptions) (documentId : Str) (text : Str) :
    Nat → Nat → Nat → List TextChunk
  | 0, _, _ => []
  | fuel + 1, s, i =>
    if s < text.length then
      if chunkEnd opts text s ≥ text.length then
        [⟨documentId, slice text s (chunkEnd opts text s), s, chunkEnd opts text s, i⟩]
      else
        ⟨documentId, slice text s (chunkEnd opts text s), s, chunkEnd opts text s, i⟩ ::
          chunkLoop opts documentId text fuel
            (s + max (chunkEnd opts text s - s - opts.chunkOverlap) 1) (i + 1)
    else []

/-- `chunkText` of chunker.ts. -/
def chunkText (text : Str) (documentId : Str) (opts : ChunkerOptions) : List TextChunk :=
  if (jsTrim text).length = 0 then []
  else chunkLoop opts documentId text text.length 0 0

/-! ## Label normalizer (src/lib/utils/export.ts) -/

/-- `SINGULARIZATION_EXCEPTIONS`: words ending in `s` that are not plurals. -/
def SINGULARIZATION_EXCEPTIONS : List Str :=
  ["less", "class", "process", "bias", "loss", "axis", "analysis", "basis",
   "crisis", "diagnosis", "hypothesis", "thesis", "synthesis", "consensus",
   "focus", "status", "virus", "plus", "gas", "bus", "stress", "success",
   "access", "progress", "address", "express", "congress", "mass", "glass",
   "grass", "cross", "boss", "moss"].map String.toList

/-- `word.endsWith(suffix)`. -/
def jsEndsWith (word suffix : Str) : Bool := suffix.isSuffixOf word

/-- `isSingularizationException` of export.ts. -/
def isSingularizationException (word : Str) : Bool :=
  if word ∈ SINGULARIZATION_EXCEPTIONS then true
  else
    jsEndsWith word "ss".toList || jsEndsWith word "us".toList ||
    jsEndsWith word "is".toList || jsEndsWith word "sis".toList ||
    jsEndsWith word "ous".toList

/-- `normalizeLabel` of export.ts: lowercase, trim, collapse whitespace, then
strip one trailing `s` when the word is longer than 3 characters and not an
exception. -/
def normalizeLabel (label : Str) : Str :=
  if (collapseWs (jsTrim (lowerStr label))).length > 3 ∧
      jsEndsWith (collapseWs (jsTrim (lowerStr label))) "s".toList ∧
      ¬ isSingularizationException (collapseWs (jsTrim (lowerStr label))) then
    (collapseWs (jsTrim (lowerStr label))).dropLast
  else collapseWs (jsTrim (lowerStr label))

/-- Modelled from the spec (§4.2), for the refinement claim: lowercase, trim,
collapse internal whitespace runs to one space, then, unless the normalized
string has length ≤ 3 or is a singularization exception (explicit list or the
`ss`/`us`/`is`/`sis`/`ous` suffix patterns), strip exactly one trailing `s`. -/
def specNormalize (label : Str) : Str :=
  if (collapseWs (jsTrim (lowerStr label))).length ≤ 3 ∨
      isSingularizationException (collapseWs (jsTrim (lowerStr label))) then
    collapseWs (jsTrim (lowerStr label))
  else if jsEndsWith (collapseWs (jsTrim (lowerStr label))) "s".toList then
    (collapseWs (jsTrim (lowerStr label))).dropLast
  else collapseWs (jsTrim (lowerStr label))

/-! ## JSON responses (src/lib/ai/utils.ts and the identical local copy in the
contradiction detector).  `JSON.parse` is a platform builtin, treated as an
external collaborator: it is a parameter `jsonParse` of the embedded
functions. -/

/-- A parsed JSON document. -/
inductive JsonValue where
  | null
  | bool (b : Bool)
  | num (q : ℚ)
  | str (s : Str)
  | arr (elems : List JsonValue)
  | obj (fields : List (Str × JsonValue))

/-- Error raised by `parseJsonResponse`: either the `SyntaxError` of
`JSON.parse` on the fenced block's contents, rethrown unwrapped, or the
custom `Error` carrying the first 200 characters of the text. -/
inductive JsParseError where
  | raw
  | wrapped (first200 : Str)
deriving DecidableEq, Repr

/-- Shortest prefix of the string that is followed by a closing fence
`\x60\x60\x60`; `none` when no fence occurs. -/
def untilFence : Str → Option Str
  | [] => none
  | c :: rest =>
    if "```".toList.isPrefixOf (c :: rest) then some []
    else (untilFence rest).map (fun s => c :: s)

/-- Attempt to match `/\x60\x60\x60(?:json)?\s*([\s\S]*?)\x60\x60\x60/` at the
start of the string, returning the capture group. -/
def matchFenceAt (l : Str) : Option Str :=
  if "```".toList.isPrefixOf l then
    let afterOpen := l.drop 3
    let afterTag := if "json".toList.isPrefixOf afterOpen then afterOpen.drop 4 else afterOpen
    untilFence (afterTag.dropWhile isJsWhitespace)
  else none

/-- `text.match(/\x60\x60\x60(?:json)?\s*([\s\S]*?)\x60\x60\x60/)`: leftmost
match, returning the first capture group. -/
def findCodeBlock : Str → Option Str
  | [] => none
  | c :: rest =>
    match matchFenceAt (c :: rest) with
    | some content => some content
    | none => findCodeBlock rest

/-- `parseJsonResponse`: direct parse, then first fenced block (trimmed), else
the custom error with the first 200 characters.  A parse failure on the
fenced block's contents is rethrown unwrapped (`JsParseError.raw`). -/
def parseJsonResponse (jsonParse : Str → Except Unit JsonValue) (text : Str) :
    Except JsParseError JsonValue :=
  match jsonParse text with
  | .ok v => .ok v
  | .error _ =>
    match findCodeBlock text with
    | some inner =>
      match jsonParse (jsTrim inner) with
      | .ok v => .ok v
      | .error _ => .error .raw
    | none => .error (.wrapped (text.take 200))

/-! ## Contradiction detector (contradiction-detector.ts) -/

/-- A `Claim` record (random `id` kept as data, `chunkId`/`createdAt`
omitted). -/
structure Claim where
  id : Str
  documentId : Str
  text : Str
  type : Str
  confidence : ℚ
  topicIds : List Str
deriving DecidableEq, Repr

/-- `ContradictionCheckResult`. -/
structure ContradictionCheckResult where
  isContradiction : Bool
  description : Str
  severity : Str
  confidence : ℚ
deriving DecidableEq, Repr

/-- JavaScript truthiness (`Boolean(v)`) of a JSON value. -/
def jsTruthy : JsonValue → Bool
  | .null => false
  | .bool b => b
  | .num q => decide (q ≠ 0)
  | .str s => decide (s ≠ [])
  | .arr _ => true
  | .obj _ => true

/-- Property lookup on a parsed JSON object; for duplicate keys `JSON.parse`
keeps the last occurrence. -/
def jsonGet (fields : List (Str × JsonValue)) (key : Str) : Option JsonValue :=
  (fields.reverse.find? (fun p => p.1 == key)).map (fun p => p.2)

/-- `validateContradictionResult`: structural check, then severity whitelist,
confidence clamped to `[0, 1]`, non-string description replaced by `""`.
A non-object value, or an object or array missing one of the four fields,
yields the invalid-structure default. -/
def validateContradictionResult (v : JsonValue) : ContradictionCheckResult :=
  match v with
  | .obj fields =>
    match jsonGet fields "isContradiction".toList, jsonGet fields "description".toList,
        jsonGet fields "severity".toList, jsonGet fields "confidence".toList with
    | some ic, some de, some se, some co =>
      let description := match de with | .str s => s | _ => []
      let severity := match se with
        | .str s =>
          if s = "low".toList ∨ s = "medium".toList ∨ s = "high".toList then s
          else "low".toList
        | _ => "low".toList
      let confidence := max 0 (min 1 (match co with | .num q => q | _ => 0))
      ⟨jsTruthy ic, description, severity, confidence⟩
    | _, _, _, _ => ⟨false, "Invalid response structure".toList, "low".toList, 0⟩
  | _ => ⟨false, "Invalid response structure".toList, "low".toList, 0⟩

/-- All index pairs `i < j` of a list, in the nested-loop order of the
source. -/
def listPairs {α : Type} : List α → List (α × α)
  | [] => []
  | x :: xs => (xs.map (fun y => (x, y))) ++ listPairs xs

/-- `claimA.topicIds.some((topicId) => claimB.topicIds.includes(topicId))`. -/
def sharesTopic (a b : Claim) : Bool :=
  a.topicIds.any (fun t => b.topicIds.contains t)

/-- JavaScript `<` on strings: lexicographic by code unit. -/
def strLt : Str → Str → Bool
  | [], [] => false
  | [], _ :: _ => true
  | _ :: _, [] => false
  | a :: as, b :: bs => if a < b then true else if b < a then false else strLt as bs

/-- The order-independent dedup key `` `${a}:${b}` `` with `a`, `b` the two
ids in canonical order. -/
def pairKey (a b : Str) : Str :=
  if strLt a b then a ++ ':' :: b else b ++ ':' :: a

/-- The nested loop of `generateContradictionCandidates`, with the `seen`
set. -/
def genLoop : List (Claim × Claim) → List Str → List (Str × Str)
  | [], _ => []
  | (a, b) :: rest, seen =>
    if ¬ a.type = b.type then genLoop rest seen
    else if ¬ sharesTopic a b then genLoop rest seen
    else
      let key := pairKey a.id b.id
      if key ∈ seen then genLoop rest seen
      else (a.id, b.id) :: genLoop rest (key :: seen)

/-- `generateContradictionCandidates` of contradiction-detector.ts. -/
def generateContradictionCandidates (claims : List Claim) : List (Str × Str) :=
  genLoop (listPairs claims) []

/-- Modelled from the spec (§4.6), for the refinement claim: one entry per
unordered pair of distinct claims with identical type and at least one shared
topic identity. -/
def contradictionCandidatesSpec (claims : List Claim) : List (Str × Str) :=
  ((listPairs claims).filter (fun p => p.1.type == p.2.type && sharesTopic p.1 p.2)).map
    (fun p => (p.1.id, p.2.id))

/-- One content block of an oracle response. -/
inductive ContentBlock where
  | text (s : Str)
  | other
deriving DecidableEq, Repr

/-- The safe default returned by the catch-all in `verifyContradiction`. -/
def safeDefaultResult (msg : Str) : ContradictionCheckResult :=
  ⟨false, msg, "low".toList, 0⟩

/-- The `message` of the error raised by `parseJsonResponse` (the raw
`SyntaxError` message is engine specific and modelled as empty). -/
def errMessage : JsParseError → Str
  | .raw => []
  | .wrapped s => "Failed to parse JSON response: ".toList ++ s

/-- `verifyContradiction`: a transport error, an empty content list (reading
`content[0].type` throws) or a parse error all land in the catch branch and
produce the safe default; otherwise the parsed JSON is validated. -/
def verifyContradiction (jsonParse : Str → Except Unit JsonValue)
    (resp : Except Str (List ContentBlock)) : ContradictionCheckResult :=
  match resp with
  | .error msg => safeDefaultResult msg
  | .ok [] => safeDefaultResult []
  | .ok (b :: _) =>
    let responseText := match b with | .text s => s | .other => []
    match parseJsonResponse jsonParse responseText with
    | .ok v => validateContradictionResult v
    | .error e => safeDefaultResult (errMessage e)

/-- A `Contradiction` record (`id` and `createdAt` omitted). -/
structure Contradiction where
  claimAId : Str
  claimBId : Str
  description : Str
  severity : Str
  confidence : ℚ
  status : Str
deriving DecidableEq, Repr

/-- The claim lookup map built by `detectContradictions` (`Map.set` in list
order: the last claim with a given id wins). -/
def claimMapGet (claims : List Claim) (id : Str) : Option Claim :=
  claims.reverse.find? (fun c => c.id == id)

/-- The sequential verification loop of `detectContradictions`.  The second
component logs the oracle calls actually made, so that the no-candidates
short-circuit is observable. -/
def detectLoop (jsonParse : Str → Except Unit JsonValue)
    (respond : Claim → Claim → Except Str (List ContentBlock)) (claims : List Claim) :
    List (Str × Str) → List Contradiction × List (Claim × Claim)
  | [] => ([], [])
  | (idA, idB) :: rest =>
    match claimMapGet claims idA, claimMapGet claims idB with
    | some claimA, some claimB =>
      let r := verifyContradiction jsonParse (respond claimA claimB)
      let tail := detectLoop jsonParse respond claims rest
      (if r.isContradiction ∧ (6/10 : ℚ) < r.confidence then
        ⟨idA, idB, r.description, r.severity, r.confidence, "pending".toList⟩ :: tail.1
       else tail.1,
       (claimA, claimB) :: tail.2)
    | _, _ => detectLoop jsonParse respond claims rest

/-- `detectContradictions`: candidates, early return when none, then the
sequential loop.  Returns the contradictions and the oracle-call log. -/
def detectContradictions (jsonParse : Str → Except Unit JsonValue)
    (respond : Claim → Claim → Except Str (List ContentBlock)) (claims : List Claim) :
    List Contradiction × List (Claim × Claim) :=
  let candidates := generateContradictionCandidates claims
  if candidates.isEmpty then ([], [])
  else detectLoop jsonParse respond claims candidates

/-- Whether a candidate id pair passes the `isContradiction && confidence >
0.6` filter, with the claims resolved via the lookup map. -/
def candidateKept (jsonParse : Str → Except Unit JsonValue)
    (respond : Claim → Claim → Except Str (List ContentBlock)) (claims : List Claim)
    (idA idB : Str) : Bool :=
  match claimMapGet claims idA, claimMapGet claims idB with
  | some claimA, some claimB =>
    (verifyContradiction jsonParse (respond claimA claimB)).isContradiction &&
      decide ((6/10 : ℚ) < (verifyContradiction jsonParse (respond claimA claimB)).confidence)
  | _, _ => false

/-! ## Gap analyzer (src/lib/ai/gap-analyzer.ts) -/

/-- A `Topic` record. -/
structure Topic where
  id : Str
  label : Str
  normalizedLabel : Str
  claimCount : ℤ
  documentCount : ℤ
deriving DecidableEq, Repr

/-- A `TopicRelationship` record. -/
structure TopicRelationship where
  id : Str
  sourceId : Str
  targetId : Str
  type : Str
  weight : ℤ
deriving DecidableEq, Repr

/-- A `KnowledgeGap` record (`id` and `createdAt` omitted). -/
structure KnowledgeGap where
  description : Str
  topicIds : List Str
  gapType : Str
  significance : ℚ
deriving DecidableEq, Repr

/-- The final value of `degreeMap` at a given id, extensionally: every
relationship increments both of its endpoints (a self-loop counts twice). -/
def degree (rels : List TopicRelationship) (id : Str) : Nat :=
  rels.countP (fun r => r.sourceId == id) + rels.countP (fun r => r.targetId == id)

/-- Stable insertion step for the ascending numeric sort
`degrees.sort((a, b) => a - b)`. -/
def insertAsc (n : Nat) : List Nat → List Nat
  | [] => [n]
  | m :: t => if n ≤ m then n :: m :: t else m :: insertAsc n t

/-- Ascending sort of the degree list (`Array.prototype.sort` is stable;
stable sorting is extensionally unique, modelled by insertion sort). -/
def sortAsc : List Nat → List Nat
  | [] => []
  | n :: t => insertAsc n (sortAsc t)

/-- `degrees[Math.floor(degrees.length / 2)]` over the sorted degrees. -/
def medianDegree (topics : List Topic) (rels : List TopicRelationship) : Nat :=
  (sortAsc (topics.map (fun t => degree rels t.id))).getD (topics.length / 2) 0

/-- Membership in `adjacencySet`, extensionally: the set holds the strings
`` `${s}:${t}` `` and `` `${t}:${s}` `` for every relationship. -/
def hasEdgeKey (rels : List TopicRelationship) (a b : Str) : Bool :=
  rels.any (fun r =>
    (r.sourceId ++ ':' :: r.targetId) == (a ++ ':' :: b) ||
    (r.targetId ++ ':' :: r.sourceId) == (a ++ ':' :: b))

/-- The significance formula of a structural gap. -/
def gapSignificance (topicCount dA dB : Nat) : ℚ :=
  1/2 + 1/2 * min 1 (((dA : ℚ) + (dB : ℚ)) / ((topicCount : ℚ) * 2))

/-- The description naming both topic labels. -/
def structuralGapDescription (la lb : Str) : Str :=
  "Structural gap: \"".toList ++ la ++ "\" and \"".toList ++ lb ++
  "\" are both well-studied topics but lack a direct relationship in the literature.".toList

/-- The gap list accumulated by the nested pair loop of
`findStructuralGaps`, before sorting and truncation. -/
def structuralGapsRaw (topics : List Topic) (rels : List TopicRelationship) :
    List KnowledgeGap :=
  (listPairs (topics.filter (fun t => degree rels t.id > medianDegree topics rels))).filterMap
    (fun p =>
    if hasEdgeKey rels p.1.id p.2.id then none
    else some ⟨structuralGapDescription p.1.label p.2.label, [p.1.id, p.2.id],
      "structural".toList, gapSignificance topics.length (degree rels p.1.id) (degree rels p.2.id)⟩)

/-- Stable insertion step for the descending sort
`gaps.sort((a, b) => b.significance - a.significance)`. -/
def insertGapDesc (g : KnowledgeGap) : List KnowledgeGap → List KnowledgeGap
  | [] => [g]
  | h :: t => if h.significance ≤ g.significance then g :: h :: t else h :: insertGapDesc g t

/-- Descending stable sort by significance. -/
def sortGapsDesc : List KnowledgeGap → List KnowledgeGap
  | [] => []
  | g :: t => insertGapDesc g (sortGapsDesc t)

/-- `findStructuralGaps` of gap-analyzer.ts. -/
def findStructuralGaps (topics : List Topic) (rels : List TopicRelationship) :
    List KnowledgeGap :=
  if topics.length < 2 then []
  else (sortGapsDesc (structuralGapsRaw topics rels)).take 20

/-! ## Topic co-occurrence pairs (use-ingestion-pipeline.ts) -/

/-- `pairWeights.set(key, (pairWeights.get(key) ?? 0) + 1)` on an
insertion-ordered association list. -/
def bumpPair (m : List ((Str × Str) × Nat)) (k : Str × Str) : List ((Str × Str) × Nat) :=
  if m.any (fun p => p.1 == k) then
    m.map (fun p => if p.1 == k then (p.1, p.2 + 1) else p)
  else m ++ [(k, 1)]

/-- The canonical ordering `topics[i] < topics[j] ? [i, j] : [j, i]` used for
pair keys (for equal ids both branches give the same self-pair). -/
def canonPair (a b : Str) : Str × Str :=
  if strLt a b then (a, b) else (b, a)

/-- The `pairWeights` map built by `createTopicRelationships` from the
document's claims (given as their `topicIds` lists): first the within-claim
pairs (no equality guard), then the cross-claim pairs (with the
`tA === tB` guard).  Each key becomes the `(sourceId, targetId)` of an
upserted `TopicRelationship`. -/
def pairWeights (claimTopicIds : List (List Str)) : List ((Str × Str) × Nat) :=
  let withinClaims := claimTopicIds.foldl (fun m ts =>
    (listPairs ts).foldl (fun m' p => bumpPair m' (canonPair p.1 p.2)) m) []
  (listPairs claimTopicIds).foldl (fun m q =>
    q.1.foldl (fun m' tA =>
      q.2.foldl (fun m'' tB =>
        if tA = tB then m'' else bumpPair m'' (canonPair tA tB)) m') m) withinClaims

/-! ## Document deletion (the documents data-access module) -/

/-- A `Document` record (fields not read by `deleteDocument` are omitted). -/
structure DocumentRec where
  id : Str
  name : Str
  hash : Str
deriving DecidableEq, Repr

/-- The five stores touched by `deleteDocument`. -/
structure DB where
  documents : List DocumentRec
  textChunks : List TextChunk
  claims : List Claim
  topics : List Topic
  topicRelationships : List TopicRelationship
deriving DecidableEq, Repr

/-- `topicClaimCounts.set(topicId, (get ?? 0) + 1)` on an insertion-ordered
association list: update the existing entry in place, else append. -/
def bumpCount : List (Str × Nat) → Str → List (Str × Nat)
  | [], k => [(k, 1)]
  | p :: m, k => if p.1 == k then (p.1, p.2 + 1) :: m else p :: bumpCount m k

/-- The per-topic occurrence counts over the document's claims. -/
def topicClaimCounts (cs : List Claim) : List (Str × Nat) :=
  cs.foldl (fun m c => c.topicIds.foldl bumpCount m) []

/-- One iteration of the update loop of `deleteDocument`: fetch the topic,
orphan it when the decremented claim count is `≤ 0`, otherwise update its
counts. -/
def applyTopicCount (acc : List Topic × List Str) (kv : Str × Nat) :
    List Topic × List Str :=
  match acc.1.find? (fun t => t.id == kv.1) with
  | none => acc
  | some topic =>
    let newClaimCount := topic.claimCount - (kv.2 : ℤ)
    if newClaimCount ≤ 0 then (acc.1, acc.2 ++ [kv.1])
    else
      (acc.1.map (fun t => if t.id == kv.1 then
        ⟨t.id, t.label, t.normalizedLabel, newClaimCount, max 0 (t.documentCount - 1)⟩ else t),
       acc.2)

/-- The claims of the document being deleted (`db.claims.where("documentId").equals(id)`). -/
def deletedClaimsOf (id : Str) (db : DB) : List Claim :=
  db.claims.filter (fun c => c.documentId == id)

/-- The state of `(topics, orphanedTopicIds)` after the update loop of
`deleteDocument`. -/
def accOf (id : Str) (db : DB) : List Topic × List Str :=
  (topicClaimCounts (deletedClaimsOf id db)).foldl applyTopicCount (db.topics, [])

/-- `deleteDocument`: remove the document, its chunks and claims, decrement
or orphan the referenced topics, and drop relationships touching orphaned
topics. -/
def deleteDocument (id : Str) (db : DB) : DB :=
  ⟨db.documents.filter (fun d => ¬ d.id == id),
   db.textChunks.filter (fun ch => ¬ ch.documentId == id),
   db.claims.filter (fun c => ¬ c.documentId == id),
   if (accOf id db).2.isEmpty then (accOf id db).1
     else (accOf id db).1.filter (fun t => ¬ (accOf id db).2.contains t.id),
   if (accOf id db).2.isEmpty then db.topicRelationships
     else db.topicRelationships.filter
       (fun r => ¬ ((accOf id db).2.contains r.sourceId ||
         (accOf id db).2.contains r.targetId))⟩

/-! ## C6: label normalizer -/

/-- C6: `normalizeLabel` lowercases, trims, collapses internal whitespace
runs, and strips exactly one trailing `s` unless the normalized string has
length ≤ 3 or is a singularization exception (explicit list or the
`ss`/`us`/`is`/`sis`/`ous` suffixes); in particular `"Cells"`, `"cells"` and
`" CELLS "` all normalize to `"cell"`, `"bias"` and `"gas"` are kept. -/
theorem normalizeLabel_matches_spec :
    (∀ label : Str, normalizeLabel label = specNormalize label) ∧
    normalizeLabel "Cells".toList = "cell".toList ∧
    normalizeLabel "cells".toList = "cell".toList ∧
    normalizeLabel " CELLS ".toList = "cell".toList ∧
    normalizeLabel "bias".toList = "bias".toList ∧
    normalizeLabel "gas".toList = "gas".toList := by
  refine ⟨fun label => ?_, by decide, by decide, by decide, by decide, by decide⟩
  unfold normalizeLabel specNormalize
  set n := collapseWs (jsTrim (lowerStr label)) with hn
  by_cases h1 : 3 < n.length
  · have h1' : ¬ n.length ≤ 3 := by omega
    by_cases h2 : jsEndsWith n ("s".toList) = true <;>
      by_cases h3 : isSingularizationException n = true <;>
        simp [h1, h1', h2, h3]
  · have h1' : n.length ≤ 3 := by omega
    simp [h1, h1']

/-! ## C9: chunker on empty and short inputs -/

/-- C9: `chunkText` returns `[]` for every input that is empty or
whitespace-only (i.e. trims to the empty string), and for every input with
non-whitespace content shorter than `chunkSize` it returns exactly one chunk
whose content is the full text with offsets `[0, length]`. -/
theorem chunkText_empty_and_short :
    (∀ (text docId : Str) (opts : ChunkerOptions),
      jsTrim text = [] → chunkText text docId opts = []) ∧
    (∀ (text docId : Str) (opts : ChunkerOptions),
      jsTrim text ≠ [] → text.length < opts.chunkSize →
      chunkText text docId opts = [⟨docId, text, 0, text.length, 0⟩]) := by
  constructor
  · intro text docId opts h
    simp [chunkText, h]
  · intro text docId opts h hlen
    have htext : text ≠ [] := by
      intro he
      exact h (by simp [he, jsTrim])
    have hlen0 : 0 < text.length := List.length_pos.mpr htext
    have htrim : ¬ (jsTrim text).length = 0 := by
      simpa [List.length_eq_zero] using h
    obtain ⟨fuel, hfuel⟩ : ∃ fuel, text.length = fuel + 1 :=
      ⟨text.length - 1, by omega⟩
    have hraw : rawChunkEnd opts text 0 = text.length := by
      unfold rawChunkEnd
      rw [if_pos (by omega)]
    have hend : chunkEnd opts text 0 = text.length := by
      unfold chunkEnd
      rw [hraw, if_neg (by omega)]
    unfold chunkText
    rw [if_neg htrim, hfuel, chunkLoop, if_pos hlen0,
      if_pos (le_of_eq hend.symm), hend, ← hfuel]
    have hslice : slice text 0 text.length = text := by
      unfold slice
      simp
    rw [hslice]

/-- C9 witness: concrete whitespace-only and short inputs. -/
theorem chunkText_empty_and_short_witness :
    chunkText "   ".toList "d".toList DEFAULT_OPTIONS = [] ∧
    chunkText "hi".toList "d".toList DEFAULT_OPTIONS =
      [⟨"d".toList, "hi".toList, 0, 2, 0⟩] := by
  constructor
  · exact chunkText_empty_and_short.1 "   ".toList "d".toList DEFAULT_OPTIONS (by decide)
  · exact chunkText_empty_and_short.2 "hi".toList "d".toList DEFAULT_OPTIONS
      (by decide) (by decide)

/-! ## C2: canonical order of topic-relationship endpoints -/

/-- C2 (code bug): a claim whose `topicIds` list contains the same topic
twice makes the within-claim pair loop of `createTopicRelationships` emit the
self-pair `(t, t)` — the `topics[i] < topics[j]` test is false for equal ids
and, unlike the cross-claim loop, this loop has no `tA === tB` guard — so a
`TopicRelationship` with `sourceId = targetId` (not `sourceId < targetId`)
is created. -/
theorem pairWeights_self_pair_bug :
    pairWeights [["topic_a".toList, "topic_a".toList]] =
      [(("topic_a".toList, "topic_a".toList), 1)] ∧
    strLt "topic_a".toList "topic_a".toList = false := by
  exact ⟨by decide, by decide⟩

/-! ## C8: JSON response parsing -/

/-- A concrete stand-in for `JSON.parse` used to evaluate the parser's
control flow on explicit inputs: accepts exactly the text `"1"`. -/
def toyParse : Str → Except Unit JsonValue :=
  fun s => if s = "1".toList then .ok (.num 1) else .error ()

/-- C8 counterexample: on a text whose direct parse fails, that contains a
fenced code block, and whose block contents also fail to parse, the function
neither returns the block parse nor throws the error carrying the first 200
characters: it rethrows the raw parse error unwrapped. -/
theorem parseJsonResponse_raw_error_counterexample :
    (findCodeBlock "bad ```json 2```".toList).isSome = true ∧
    parseJsonResponse toyParse "bad ```json 2```".toList = .error .raw ∧
    JsParseError.raw ≠ .wrapped (("bad ```json 2```".toList).take 200) := by
  exact ⟨rfl, rfl, by decide⟩

/-- C8 (amended): `parseJsonResponse` returns the direct parse when the text
is valid; when the direct parse fails and the text contains a fenced code
block, it returns the parse of the first block's trimmed contents when that
parse succeeds and rethrows that parse's raw error (without the 200-character
message) when it fails; when the direct parse fails and no fenced block
exists, it throws the parse error carrying the first 200 characters. -/
theorem parseJsonResponse_spec (jsonParse : Str → Except Unit JsonValue) (text : Str) :
    (∀ v, jsonParse text = .ok v → parseJsonResponse jsonParse text = .ok v) ∧
    (∀ e inner, jsonParse text = .error e → findCodeBlock text = some inner →
      parseJsonResponse jsonParse text =
        (match jsonParse (jsTrim inner) with
         | .ok v => .ok v
         | .error _ => .error .raw)) ∧
    (∀ e, jsonParse text = .error e → findCodeBlock text = none →
      parseJsonResponse jsonParse text = .error (.wrapped (text.take 200))) := by
  refine ⟨?_, ?_, ?_⟩
  · intro v h
    simp [parseJsonResponse, h]
  · intro e inner h hblock
    simp [parseJsonResponse, h, hblock]
  · intro e h hblock
    simp [parseJsonResponse, h, hblock]

/-- C8 witness: the three amended branches at concrete inputs. -/
theorem parseJsonResponse_spec_witness :
    parseJsonResponse toyParse "1".toList = .ok (.num 1) ∧
    parseJsonResponse toyParse "x ```1``` ".toList = .ok (.num 1) ∧
    parseJsonResponse toyParse "nope".toList =
      .error (.wrapped ("nope".toList.take 200)) := by
  refine ⟨?_, ?_, ?_⟩
  · exact (parseJsonResponse_spec toyParse "1".toList).1 (.num 1) rfl
  · have h := (parseJsonResponse_spec toyParse "x ```1``` ".toList).2.1 () "1".toList rfl rfl
    exact h.trans rfl
  · exact (parseJsonResponse_spec toyParse "nope".toList).2.2 () rfl rfl

/-! ## C5: contradiction detection control flow -/

lemma detectLoop_cons (jsonParse : Str → Except Unit JsonValue)
    (respond : Claim → Claim → Except Str (List ContentBlock)) (claims : List Claim)
    (a b : Str) (rest : List (Str × Str)) :
    detectLoop jsonParse respond claims ((a, b) :: rest) =
      match claimMapGet claims a, claimMapGet claims b with
      | some claimA, some claimB =>
        (if (verifyContradiction jsonParse (respond claimA claimB)).isContradiction ∧
            (6/10 : ℚ) < (verifyContradiction jsonParse (respond claimA claimB)).confidence then
          ⟨a, b, (verifyContradiction jsonParse (respond claimA claimB)).description,
            (verifyContradiction jsonParse (respond claimA claimB)).severity,
            (verifyContradiction jsonParse (respond claimA claimB)).confidence,
            "pending".toList⟩ :: (detectLoop jsonParse respond claims rest).1
         else (detectLoop jsonParse respond claims rest).1,
         (claimA, claimB) :: (detectLoop jsonParse respond claims rest).2)
      | _, _ => detectLoop jsonParse respond claims rest := rfl

lemma detectLoop_map_pairs (jsonParse : Str → Except Unit JsonValue)
    (respond : Claim → Claim → Except Str (List ContentBlock)) (claims : List Claim)
    (cands : List (Str × Str)) :
    (detectLoop jsonParse respond claims cands).1.map (fun c => (c.claimAId, c.claimBId)) =
      cands.filter (fun q => candidateKept jsonParse respond claims q.1 q.2) := by
  induction cands with
  | nil => rfl
  | cons q rest ih =>
    obtain ⟨a, b⟩ := q
    rw [List.filter_cons]
    cases hA : claimMapGet claims a with
    | none =>
      have hck : candidateKept jsonParse respond claims a b = false := by
        unfold candidateKept
        rw [hA]
      simp only [detectLoop_cons, hA]
      simpa [hck] using ih
    | some ca =>
      cases hB : claimMapGet claims b with
      | none =>
        have hck : candidateKept jsonParse respond claims a b = false := by
          unfold candidateKept
          rw [hA, hB]
        simp only [detectLoop_cons, hA, hB]
        simpa [hck] using ih
      | some cb =>
        by_cases hk : (verifyContradiction jsonParse (respond ca cb)).isContradiction = true ∧
            (6/10 : ℚ) < (verifyContradiction jsonParse (respond ca cb)).confidence
        · have hck : candidateKept jsonParse respond claims a b = true := by
            unfold candidateKept
            rw [hA, hB]
            simp only [hk.1, decide_eq_true hk.2, Bool.and_self]
          simp only [detectLoop_cons, hA, hB]
          rw [if_pos hk, List.map_cons]
          simp only [hck, ite_true]
          exact congrArg (List.cons (a, b)) ih
        · have hck : candidateKept jsonParse respond claims a b = false := by
            unfold candidateKept
            rw [hA, hB]
            rcases Classical.em
              ((verifyContradiction jsonParse (respond ca cb)).isContradiction = true) with h1 | h1
            · have h2 : ¬ (6/10 : ℚ) < (verifyContradiction jsonParse (respond ca cb)).confidence :=
                fun h2 => hk ⟨h1, h2⟩
              simp [h2]
            · simp [h1]
          simp only [detectLoop_cons, hA, hB]
          rw [if_neg hk]
          simpa [hck] using ih

lemma detectLoop_status (jsonParse : Str → Except Unit JsonValue)
    (respond : Claim → Claim → Except Str (List ContentBlock)) (claims : List Claim)
    (cands : List (Str × Str)) :
    ∀ c ∈ (detectLoop jsonParse respond claims cands).1, c.status = "pending".toList := by
  induction cands with
  | nil => intro c hc; simp [detectLoop] at hc
  | cons q rest ih =>
    obtain ⟨a, b⟩ := q
    intro c hc
    cases hA : claimMapGet claims a with
    | none =>
      simp only [detectLoop_cons, hA] at hc
      exact ih c hc
    | some ca =>
      cases hB : claimMapGet claims b with
      | none =>
        simp only [detectLoop_cons, hA, hB] at hc
        exact ih c hc
      | some cb =>
        simp only [detectLoop_cons, hA, hB] at hc
        by_cases hk : (verifyContradiction jsonParse (respond ca cb)).isContradiction = true ∧
            (6/10 : ℚ) < (verifyContradiction jsonParse (respond ca cb)).confidence
        · rw [if_pos hk] at hc
          rcases List.mem_cons.mp hc with h | h
          · rw [h]
          · exact ih c h
        · rw [if_neg hk] at hc
          exact ih c hc

/-- C5: `detectContradictions` keeps exactly the candidate pairs whose
verification has `isContradiction` and confidence > 0.6, each materialized
with status `"pending"`; with no candidates it makes no oracle call and
returns the empty list; a failed oracle call or a parse failure yields the
safe default (`isContradiction` false, confidence 0), and a candidate pair
whose verification does not pass the filter is never included. -/
theorem detectContradictions_spec (jsonParse : Str → Except Unit JsonValue)
    (respond : Claim → Claim → Except Str (List ContentBlock)) (claims : List Claim) :
    ((detectContradictions jsonParse respond claims).1.map (fun c => (c.claimAId, c.claimBId)) =
      (generateContradictionCandidates claims).filter
        (fun q => candidateKept jsonParse respond claims q.1 q.2)) ∧
    (∀ c ∈ (detectContradictions jsonParse respond claims).1, c.status = "pending".toList) ∧
    (generateContradictionCandidates claims = [] →
      detectContradictions jsonParse respond claims = ([], [])) ∧
    (∀ msg, verifyContradiction jsonParse (.error msg) = safeDefaultResult msg) ∧
    (∀ s rest e, parseJsonResponse jsonParse s = .error e →
      verifyContradiction jsonParse (.ok (.text s :: rest)) = safeDefaultResult (errMessage e)) ∧
    (∀ msg, (safeDefaultResult msg).isContradiction = false ∧
      (safeDefaultResult msg).confidence = 0) ∧
    (∀ a b, candidateKept jsonParse respond claims a b = false →
      ∀ c ∈ (detectContradictions jsonParse respond claims).1,
        ¬ (c.claimAId = a ∧ c.claimBId = b)) := by
  have hmain : (detectContradictions jsonParse respond claims).1.map
      (fun c => (c.claimAId, c.claimBId)) =
      (generateContradictionCandidates claims).filter
        (fun q => candidateKept jsonParse respond claims q.1 q.2) := by
    unfold detectContradictions
    cases hg : generateContradictionCandidates claims with
    | nil => simp
    | cons q rest =>
      simp only [List.isEmpty_cons, ite_false, Bool.false_eq_true]
      exact detectLoop_map_pairs jsonParse respond claims (q :: rest)
  refine ⟨hmain, ?_, ?_, ?_, ?_, ?_, ?_⟩
  · intro c hc
    unfold detectContradictions at hc
    cases hg : generateContradictionCandidates claims with
    | nil => rw [hg] at hc; simp at hc
    | cons q rest =>
      rw [hg] at hc
      simp only [List.isEmpty_cons, ite_false, Bool.false_eq_true] at hc
      exact detectLoop_status jsonParse respond claims (q :: rest) c hc
  · intro hg
    unfold detectContradictions
    rw [hg]
    rfl
  · intro msg
    rfl
  · intro s rest e h
    unfold verifyContradiction
    simp [h]
  · intro msg
    exact ⟨rfl, rfl⟩
  · intro a b hfalse c hc habs
    have hin : (a, b) ∈ (detectContradictions jsonParse respond claims).1.map
        (fun c => (c.claimAId, c.claimBId)) := by
      exact List.mem_map.mpr ⟨c, hc, by rw [habs.1, habs.2]⟩
    rw [hmain] at hin
    have := List.of_mem_filter hin
    simp only at this
    rw [hfalse] at this
    exact Bool.false_ne_true this

/-- C5 witness: empty claim set short-circuits; a transport error yields the
safe default. -/
theorem detectContradictions_spec_witness :
    detectContradictions toyParse (fun _ _ => Except.error "x".toList) [] = ([], []) ∧
    verifyContradiction toyParse (Except.error "boom".toList) =
      safeDefaultResult "boom".toList ∧
    (safeDefaultResult "boom".toList).isContradiction = false ∧
    (safeDefaultResult "boom".toList).confidence = 0 := by
  have h := detectContradictions_spec toyParse (fun _ _ => Except.error "x".toList) []
  exact ⟨h.2.2.1 rfl, h.2.2.2.1 "boom".toList,
    (h.2.2.2.2.2.1 "boom".toList).1, (h.2.2.2.2.2.1 "boom".toList).2⟩

/-! ## C3: candidate generation -/

lemma strLt_self (a : Str) : strLt a a = false := by
  induction a with
  | nil => rfl
  | cons c t ih => simp [strLt, lt_irrefl, ih]

lemma strLt_connex (a b : Str) (hab : strLt a b = false) (hba : strLt b a = false) :
    a = b := by
  induction a generalizing b with
  | nil =>
    cases b with
    | nil => rfl
    | cons c t => simp [strLt] at hab
  | cons c t ih =>
    cases b with
    | nil => simp [strLt] at hba
    | cons d u =>
      rcases lt_trichotomy c d with h | h | h
      · simp [strLt, h] at hab
      · subst h
        rw [strLt, if_neg (lt_irrefl c), if_neg (lt_irrefl c)] at hab hba
        rw [ih u hab hba]
      · simp [strLt, h, if_neg (asymm h)] at hba

lemma canonPair_cases (a b : Str) :
    canonPair a b = (a, b) ∨ canonPair a b = (b, a) := by
  unfold canonPair
  split
  · exact Or.inl rfl
  · exact Or.inr rfl

lemma canonPair_eq_iff (a b c d : Str) (h : canonPair a b = canonPair c d) :
    (a = c ∧ b = d) ∨ (a = d ∧ b = c) := by
  rcases canonPair_cases a b with h1 | h1 <;> rcases canonPair_cases c d with h2 | h2 <;>
    rw [h1, h2] at h <;> rcases Prod.mk.injEq .. ▸ h with ⟨ha, hb⟩ <;> subst ha <;> subst hb <;>
      simp

lemma colon_append_inj (x : Str) :
    ∀ u y v : Str, ':' ∉ x → ':' ∉ u → x ++ ':' :: y = u ++ ':' :: v →
      x = u ∧ y = v := by
  induction x with
  | nil =>
    intro u y v _ hu h
    cases u with
    | nil => simpa using h
    | cons d u' =>
      exfalso
      rw [List.nil_append, List.cons_append, List.cons_eq_cons] at h
      exact hu (h.1 ▸ List.mem_cons_self _ _)
  | cons c x' ih =>
    intro u y v hx hu h
    cases u with
    | nil =>
      exfalso
      rw [List.nil_append, List.cons_append, List.cons_eq_cons] at h
      exact hx (h.1.symm ▸ List.mem_cons_self _ _)
    | cons d u' =>
      rw [List.cons_append, List.cons_append, List.cons_eq_cons] at h
      obtain ⟨rfl, h2⟩ := h
      have hx' : ':' ∉ x' := fun hm => hx (List.mem_cons_of_mem _ hm)
      have hu' : ':' ∉ u' := fun hm => hu (List.mem_cons_of_mem _ hm)
      obtain ⟨h3, h4⟩ := ih u' y v hx' hu' h2
      exact ⟨by rw [h3], h4⟩

lemma pairKey_eq_canon (a b : Str) :
    pairKey a b = (canonPair a b).1 ++ ':' :: (canonPair a b).2 := by
  unfold pairKey canonPair
  split <;> rfl

lemma pairKey_inj (a b c d : Str) (ha : ':' ∉ a) (hb : ':' ∉ b) (hc : ':' ∉ c)
    (hd : ':' ∉ d) (h : pairKey a b = pairKey c d) : canonPair a b = canonPair c d := by
  rw [pairKey_eq_canon, pairKey_eq_canon] at h
  have h1 : ':' ∉ (canonPair a b).1 := by
    rcases canonPair_cases a b with he | he <;> rw [he] <;> assumption
  have h2 : ':' ∉ (canonPair c d).1 := by
    rcases canonPair_cases c d with he | he <;> rw [he] <;> assumption
  obtain ⟨e1, e2⟩ := colon_append_inj _ _ _ _ h1 h2 h
  exact Prod.ext e1 e2

lemma mem_of_mem_listPairs {α : Type} : ∀ {l : List α} {x y : α},
    (x, y) ∈ listPairs l → x ∈ l ∧ y ∈ l := by
  intro l
  induction l with
  | nil => intro x y h; simp [listPairs] at h
  | cons z zs ih =>
    intro x y h
    rw [listPairs, List.mem_append] at h
    rcases h with h | h
    · obtain ⟨w, hw, he⟩ := List.mem_map.mp h
      obtain ⟨rfl, rfl⟩ := Prod.mk.injEq .. ▸ he
      exact ⟨List.mem_cons_self _ _, List.mem_cons_of_mem _ hw⟩
    · obtain ⟨h1, h2⟩ := ih h
      exact ⟨List.mem_cons_of_mem _ h1, List.mem_cons_of_mem _ h2⟩

lemma listPairs_canon_nodup {α : Type} (f : α → Str) :
    ∀ (l : List α), (l.map f).Nodup →
      ((listPairs l).map (fun q => canonPair (f q.1) (f q.2))).Nodup := by
  intro l
  induction l with
  | nil => intro _; simp [listPairs]
  | cons x xs ih =>
    intro h
    rw [List.map_cons, List.nodup_cons] at h
    obtain ⟨hx, hxs⟩ := h
    rw [listPairs, List.map_append, List.nodup_append]
    refine ⟨?_, ih hxs, ?_⟩
    · rw [List.map_map]
      have hinj : ∀ y1 ∈ xs, ∀ y2 ∈ xs,
          canonPair (f x) (f y1) = canonPair (f x) (f y2) → y1 = y2 := by
        intro y1 h1 y2 h2 he
        have hfy : f y1 = f y2 := by
          rcases canonPair_eq_iff _ _ _ _ he with ⟨_, e⟩ | ⟨e1, e2⟩
          · exact e
          · rw [← e1, e2]
        exact List.inj_on_of_nodup_map hxs h1 h2 hfy
      exact List.Nodup.map_on (fun y1 h1 y2 h2 he => hinj y1 h1 y2 h2 (by simpa using he))
        (List.Nodup.of_map f hxs)
    · intro k hk1 hk2
      rw [List.map_map] at hk1
      obtain ⟨y, hy, he1⟩ := List.mem_map.mp hk1
      obtain ⟨q, hq, he2⟩ := List.mem_map.mp hk2
      have he : canonPair (f x) (f y) = canonPair (f q.1) (f q.2) := by
        simp only [Function.comp] at he1
        rw [he1, ← he2]
      have hmem := mem_of_mem_listPairs hq
      have : f x ∈ xs.map f := by
        rcases canonPair_eq_iff _ _ _ _ he with ⟨e1, _⟩ | ⟨e1, _⟩
        · exact e1 ▸ List.mem_map_of_mem f hmem.1
        · exact e1 ▸ List.mem_map_of_mem f hmem.2
      exact hx this

lemma genLoop_eq (ps : List (Claim × Claim)) : ∀ (seen : List Str),
    (∀ q ∈ ps, (q.1.type == q.2.type && sharesTopic q.1 q.2) = true →
      pairKey q.1.id q.2.id ∉ seen) →
    ((ps.filter (fun q => q.1.type == q.2.type && sharesTopic q.1 q.2)).map
      (fun q => canonPair q.1.id q.2.id)).Nodup →
    (∀ q ∈ ps, ':' ∉ q.1.id ∧ ':' ∉ q.2.id) →
    genLoop ps seen =
      (ps.filter (fun q => q.1.type == q.2.type && sharesTopic q.1 q.2)).map
        (fun q => (q.1.id, q.2.id)) := by
  induction ps with
  | nil => intro seen _ _ _; rfl
  | cons q rest ih =>
    obtain ⟨a, b⟩ := q
    intro seen h1 h2 h3
    by_cases htype : a.type = b.type
    · by_cases hshare : sharesTopic a b = true
      · have hpass : (fun q : Claim × Claim => q.1.type == q.2.type && sharesTopic q.1 q.2)
            (a, b) = true := by
          simp [htype, hshare]
        have hkey : pairKey a.id b.id ∉ seen := h1 (a, b) (List.mem_cons_self _ _) hpass
        rw [List.filter_cons, if_pos hpass, List.map_cons] at h2 ⊢
        rw [List.nodup_cons] at h2
        simp only [genLoop]
        rw [if_neg (not_not_intro htype), if_neg (not_not_intro hshare), if_neg hkey]
        refine congrArg (List.cons (a.id, b.id)) ?_
        refine ih (pairKey a.id b.id :: seen) ?_ h2.2 (fun q hq => h3 q (List.mem_cons_of_mem _ hq))
        intro q hq hqpass
        rw [List.mem_cons]
        rintro (hkeq | hinseen)
        · have hqcolon := h3 q (List.mem_cons_of_mem _ hq)
          have habcolon := h3 (a, b) (List.mem_cons_self _ _)
          have hcanon := pairKey_inj _ _ _ _ hqcolon.1 hqcolon.2 habcolon.1 habcolon.2 hkeq
          refine h2.1 ?_
          rw [← hcanon]
          exact List.mem_map_of_mem _ (List.mem_filter.mpr ⟨hq, hqpass⟩)
        · exact h1 q (List.mem_cons_of_mem _ hq) hqpass hinseen
      · have hneg : ¬ (fun q : Claim × Claim => q.1.type == q.2.type && sharesTopic q.1 q.2)
            (a, b) = true := by
          simp [hshare]
        rw [List.filter_cons, if_neg hneg] at h2 ⊢
        simp only [genLoop]
        rw [if_neg (not_not_intro htype), if_pos (by simpa using hshare)]
        exact ih seen (fun q hq => h1 q (List.mem_cons_of_mem _ hq)) h2
          (fun q hq => h3 q (List.mem_cons_of_mem _ hq))
    · have hneg : ¬ (fun q : Claim × Claim => q.1.type == q.2.type && sharesTopic q.1 q.2)
          (a, b) = true := by
        simp [htype]
      rw [List.filter_cons, if_neg hneg] at h2 ⊢
      simp only [genLoop]
      rw [if_pos htype]
      exact ih seen (fun q hq => h1 q (List.mem_cons_of_mem _ hq)) h2
        (fun q hq => h3 q (List.mem_cons_of_mem _ hq))

lemma listPairs_length {α : Type} : ∀ (l : List α),
    2 * (listPairs l).length = l.length * (l.length - 1) := by
  intro l
  induction l with
  | nil => rfl
  | cons x xs ih =>
    rw [listPairs, List.length_append, List.length_map, List.length_cons, Nat.add_sub_cancel]
    have hsplit : 2 * (xs.length + (listPairs xs).length) =
        2 * xs.length + 2 * (listPairs xs).length := by ring
    rw [hsplit, ih]
    cases hxs : xs.length with
    | zero => simp
    | succ m =>
      have hm : m + 1 - 1 = m := rfl
      rw [hm]
      ring

/-- C3: under distinct, colon-free claim ids, `generateContradictionCandidates`
returns exactly the unordered pairs of distinct claims with identical type and
at least one shared topic identity (in the nested-loop order), each unordered
pair exactly once; for N claims that all share one topic and all have the same
type it returns N·(N−1)/2 pairs. -/
theorem generateContradictionCandidates_spec (claims : List Claim)
    (hids : (claims.map (fun c => c.id)).Nodup)
    (hcolon : ∀ c ∈ claims, ':' ∉ c.id) :
    generateContradictionCandidates claims = contradictionCandidatesSpec claims ∧
    ((generateContradictionCandidates claims).map (fun p => canonPair p.1 p.2)).Nodup ∧
    (∀ T t0, (∀ c ∈ claims, c.type = T) → (∀ c ∈ claims, t0 ∈ c.topicIds) →
      (generateContradictionCandidates claims).length =
        claims.length * (claims.length - 1) / 2) := by
  have hnodupAll := listPairs_canon_nodup (fun c => c.id) claims hids
  have hnodupFilter : (((listPairs claims).filter
      (fun q => q.1.type == q.2.type && sharesTopic q.1 q.2)).map
        (fun q => canonPair q.1.id q.2.id)).Nodup := by
    refine List.Nodup.sublist (List.Sublist.map _ (List.filter_sublist _)) ?_
    exact hnodupAll
  have hmain : generateContradictionCandidates claims = contradictionCandidatesSpec claims := by
    unfold generateContradictionCandidates contradictionCandidatesSpec
    refine genLoop_eq (listPairs claims) [] (fun q _ _ => List.not_mem_nil _) hnodupFilter ?_
    intro q hq
    have hmem := mem_of_mem_listPairs hq
    exact ⟨hcolon q.1 hmem.1, hcolon q.2 hmem.2⟩
  refine ⟨hmain, ?_, ?_⟩
  · rw [hmain]
    unfold contradictionCandidatesSpec
    rw [List.map_map]
    have : ((fun p => canonPair p.1 p.2) ∘ fun (q : Claim × Claim) => (q.1.id, q.2.id)) =
        (fun q : Claim × Claim => canonPair q.1.id q.2.id) := rfl
    rw [this]
    exact hnodupFilter
  · intro T t0 hT ht0
    rw [hmain]
    unfold contradictionCandidatesSpec
    rw [List.length_map]
    have hfilter : (listPairs claims).filter
        (fun q => q.1.type == q.2.type && sharesTopic q.1 q.2) = listPairs claims := by
      refine List.filter_eq_self.mpr ?_
      intro q hq
      have hmem := mem_of_mem_listPairs hq
      have h1 : q.1.type = q.2.type := by rw [hT q.1 hmem.1, hT q.2 hmem.2]
      have h2 : sharesTopic q.1 q.2 = true := by
        unfold sharesTopic
        rw [List.any_eq_true]
        exact ⟨t0, ht0 q.1 hmem.1, by simpa using ht0 q.2 hmem.2⟩
      simp [h1, h2]
    rw [hfilter]
    have := listPairs_length claims
    omega

/-- C3 witness: three claims with one shared topic and one type yield each
unordered pair once — 3 = 3·2/2 candidates. -/
theorem generateContradictionCandidates_spec_witness :
    generateContradictionCandidates
      [⟨"a".toList, "d".toList, "x".toList, "finding".toList, 1, ["t".toList]⟩,
       ⟨"b".toList, "d".toList, "y".toList, "finding".toList, 1, ["t".toList]⟩,
       ⟨"c".toList, "d".toList, "z".toList, "finding".toList, 1, ["t".toList]⟩] =
      contradictionCandidatesSpec
      [⟨"a".toList, "d".toList, "x".toList, "finding".toList, 1, ["t".toList]⟩,
       ⟨"b".toList, "d".toList, "y".toList, "finding".toList, 1, ["t".toList]⟩,
       ⟨"c".toList, "d".toList, "z".toList, "finding".toList, 1, ["t".toList]⟩] ∧
    (generateContradictionCandidates
      [⟨"a".toList, "d".toList, "x".toList, "finding".toList, 1, ["t".toList]⟩,
       ⟨"b".toList, "d".toList, "y".toList, "finding".toList, 1, ["t".toList]⟩,
       ⟨"c".toList, "d".toList, "z".toList, "finding".toList, 1, ["t".toList]⟩]).length = 3 := by
  have h := generateContradictionCandidates_spec
    [⟨"a".toList, "d".toList, "x".toList, "finding".toList, 1, ["t".toList]⟩,
     ⟨"b".toList, "d".toList, "y".toList, "finding".toList, 1, ["t".toList]⟩,
     ⟨"c".toList, "d".toList, "z".toList, "finding".toList, 1, ["t".toList]⟩]
    (by decide) (by decide)
  refine ⟨h.1, ?_⟩
  rw [h.2.2 "finding".toList "t".toList (by decide) (by decide)]
  rfl

/-! ## C4: structural gaps -/

/-- Modelled from the spec (§4.5): a direct relationship edge between two
topic ids, in either orientation. -/
def directEdge (rels : List TopicRelationship) (a b : Str) : Bool :=
  rels.any (fun r =>
    (r.sourceId == a && r.targetId == b) || (r.targetId == a && r.sourceId == b))

/-- Modelled from the spec (§4.5): one gap per unordered pair of topics that
are both of degree strictly above the median and lack a direct relationship
edge, with the significance formula. -/
def specStructuralGapsRaw (topics : List Topic) (rels : List TopicRelationship) :
    List KnowledgeGap :=
  (listPairs topics).filterMap (fun p =>
    if degree rels p.1.id > medianDegree topics rels ∧
        degree rels p.2.id > medianDegree topics rels ∧
        directEdge rels p.1.id p.2.id = false then
      some ⟨structuralGapDescription p.1.label p.2.label, [p.1.id, p.2.id],
        "structural".toList, gapSignificance topics.length (degree rels p.1.id)
          (degree rels p.2.id)⟩
    else none)

lemma listPairs_filter {α : Type} (p : α → Bool) :
    ∀ l : List α, listPairs (l.filter p) =
      (listPairs l).filter (fun q => p q.1 && p q.2) := by
  intro l
  induction l with
  | nil => rfl
  | cons x xs ih =>
    by_cases hx : p x = true
    · rw [List.filter_cons, if_pos hx, listPairs, ih, listPairs, List.filter_append]
      congr 1
      rw [List.filter_map]
      congr 1
      apply List.filter_congr
      intro y _
      simp [hx, Function.comp]
    · rw [List.filter_cons, if_neg hx, ih, listPairs, List.filter_append]
      have hnil : (xs.map (fun y => (x, y))).filter (fun q => p q.1 && p q.2) = [] := by
        refine List.filter_eq_nil_iff.mpr ?_
        intro q hq
        obtain ⟨y, _, he⟩ := List.mem_map.mp hq
        rw [← he]
        simp [hx]
      rw [hnil, List.nil_append]

lemma hasEdgeKey_eq_directEdge (rels : List TopicRelationship) (a b : Str)
    (hcol : ∀ r ∈ rels, ':' ∉ r.sourceId ∧ ':' ∉ r.targetId)
    (ha : ':' ∉ a) (_hb : ':' ∉ b) :
    hasEdgeKey rels a b = directEdge rels a b := by
  unfold hasEdgeKey directEdge
  induction rels with
  | nil => rfl
  | cons r rest ih =>
    rw [List.any_cons, List.any_cons, ih (fun r' hr' => hcol r' (List.mem_cons_of_mem _ hr'))]
    have hr := hcol r (List.mem_cons_self _ _)
    congr 1
    have e1 : ((r.sourceId ++ ':' :: r.targetId) == (a ++ ':' :: b)) =
        (r.sourceId == a && r.targetId == b) := by
      by_cases he : r.sourceId ++ ':' :: r.targetId = a ++ ':' :: b
      · obtain ⟨f1, f2⟩ := colon_append_inj _ _ _ _ hr.1 ha he
        simp [he, f1, f2]
      · have hn : ¬ (r.sourceId = a ∧ r.targetId = b) := by
          rintro ⟨h1, h2⟩
          exact he (by rw [h1, h2])
        have g1 : ((r.sourceId ++ ':' :: r.targetId) == (a ++ ':' :: b)) = false := by
          simpa using he
        rw [g1]
        rcases Classical.em (r.sourceId = a) with h1 | h1
        · have h2 : ¬ r.targetId = b := fun h2 => hn ⟨h1, h2⟩
          simp [h2]
        · simp [h1]
    have e2 : ((r.targetId ++ ':' :: r.sourceId) == (a ++ ':' :: b)) =
        (r.targetId == a && r.sourceId == b) := by
      by_cases he : r.targetId ++ ':' :: r.sourceId = a ++ ':' :: b
      · obtain ⟨f1, f2⟩ := colon_append_inj _ _ _ _ hr.2 ha he
        simp [he, f1, f2]
      · have hn : ¬ (r.targetId = a ∧ r.sourceId = b) := by
          rintro ⟨h1, h2⟩
          exact he (by rw [h1, h2])
        have g1 : ((r.targetId ++ ':' :: r.sourceId) == (a ++ ':' :: b)) = false := by
          simpa using he
        rw [g1]
        rcases Classical.em (r.targetId = a) with h1 | h1
        · have h2 : ¬ r.sourceId = b := fun h2 => hn ⟨h1, h2⟩
          simp [h2]
        · simp [h1]
    rw [e1, e2]

lemma structuralGapsRaw_eq_spec (topics : List Topic) (rels : List TopicRelationship)
    (hTcol : ∀ t ∈ topics, ':' ∉ t.id)
    (hRcol : ∀ r ∈ rels, ':' ∉ r.sourceId ∧ ':' ∉ r.targetId) :
    structuralGapsRaw topics rels = specStructuralGapsRaw topics rels := by
  unfold structuralGapsRaw specStructuralGapsRaw
  rw [listPairs_filter, List.filterMap_filter]
  apply List.filterMap_congr
  intro q hq
  have hmem := mem_of_mem_listPairs hq
  have hedge := hasEdgeKey_eq_directEdge rels q.1.id q.2.id hRcol
    (hTcol q.1 hmem.1) (hTcol q.2 hmem.2)
  by_cases h1 : degree rels q.1.id > medianDegree topics rels
  · by_cases h2 : degree rels q.2.id > medianDegree topics rels
    · by_cases h3 : hasEdgeKey rels q.1.id q.2.id = true
      · have : directEdge rels q.1.id q.2.id = true := by rw [← hedge]; exact h3
        simp [h1, h2, h3, this]
      · have h3' : hasEdgeKey rels q.1.id q.2.id = false := by simpa using h3
        have : directEdge rels q.1.id q.2.id = false := by rw [← hedge]; exact h3'
        simp [h1, h2, h3', this]
    · simp [h1, h2]
  · simp [h1]

lemma mem_insertGapDesc (g x : KnowledgeGap) (l : List KnowledgeGap) :
    x ∈ insertGapDesc g l → x = g ∨ x ∈ l := by
  induction l with
  | nil => intro h; simpa [insertGapDesc] using h
  | cons h t ih =>
    intro hx
    unfold insertGapDesc at hx
    split at hx
    · rcases List.mem_cons.mp hx with h1 | h1
      · exact Or.inl h1
      · exact Or.inr h1
    · rcases List.mem_cons.mp hx with h1 | h1
      · exact Or.inr (h1 ▸ List.mem_cons_self _ _)
      · rcases ih h1 with h2 | h2
        · exact Or.inl h2
        · exact Or.inr (List.mem_cons_of_mem _ h2)

lemma insertGapDesc_sorted (g : KnowledgeGap) (l : List KnowledgeGap)
    (hl : l.Pairwise (fun x y => y.significance ≤ x.significance)) :
    (insertGapDesc g l).Pairwise (fun x y => y.significance ≤ x.significance) := by
  induction l with
  | nil => simp [insertGapDesc]
  | cons h t ih =>
    rw [List.pairwise_cons] at hl
    unfold insertGapDesc
    split
    · rename_i hcmp
      rw [List.pairwise_cons]
      refine ⟨?_, List.pairwise_cons.mpr hl⟩
      intro y hy
      rcases List.mem_cons.mp hy with h1 | h1
      · rw [h1]; exact hcmp
      · exact le_trans (hl.1 y h1) hcmp
    · rename_i hcmp
      rw [List.pairwise_cons]
      refine ⟨?_, ih hl.2⟩
      intro y hy
      rcases mem_insertGapDesc g y t hy with h1 | h1
      · rw [h1]
        exact le_of_not_le hcmp
      · exact hl.1 y h1

lemma sortGapsDesc_sorted (l : List KnowledgeGap) :
    (sortGapsDesc l).Pairwise (fun x y => y.significance ≤ x.significance) := by
  induction l with
  | nil => simp [sortGapsDesc]
  | cons g t ih => exact insertGapDesc_sorted g (sortGapsDesc t) ih

lemma filterMap_ite_eq_map_filter {α β : Type} (c : α → Prop) [DecidablePred c]
    (k : α → β) : ∀ l : List α,
      (l.filterMap (fun a => if c a then some (k a) else none)) =
        (l.filter (fun a => decide (c a))).map k := by
  intro l
  induction l with
  | nil => rfl
  | cons x xs ih =>
    by_cases hx : c x
    · rw [List.filterMap_cons, List.filter_cons]
      simp only [hx, if_pos, decide_eq_true_eq, ite_true, List.map_cons]
      rw [ih]
    · rw [List.filterMap_cons, List.filter_cons]
      simp only [hx, decide_eq_true_eq, ite_false, if_neg]
      rw [ih]

lemma specStructuralGapsRaw_topicIds_nodup (topics : List Topic)
    (rels : List TopicRelationship) (hN : (topics.map (fun t => t.id)).Nodup) :
    ((specStructuralGapsRaw topics rels).map (fun g => g.topicIds)).Nodup := by
  unfold specStructuralGapsRaw
  rw [List.map_filterMap]
  have hplain : ((listPairs topics).map (fun q => (q.1.id, q.2.id))).Nodup := by
    have hc := listPairs_canon_nodup (fun t => t.id) topics hN
    have heq : ((listPairs topics).map (fun q => canonPair q.1.id q.2.id)) =
        ((listPairs topics).map (fun q => (q.1.id, q.2.id))).map
          (fun p => canonPair p.1 p.2) := by
      rw [List.map_map]
      rfl
    rw [heq] at hc
    exact List.Nodup.of_map _ hc
  have hstep : ∀ q ∈ listPairs topics,
      ((if degree rels q.1.id > medianDegree topics rels ∧
           degree rels q.2.id > medianDegree topics rels ∧
           directEdge rels q.1.id q.2.id = false then
         some (⟨structuralGapDescription q.1.label q.2.label, [q.1.id, q.2.id],
           "structural".toList, gapSignificance topics.length (degree rels q.1.id)
             (degree rels q.2.id)⟩ : KnowledgeGap)
       else none).map (fun g => g.topicIds)) =
      (if degree rels q.1.id > medianDegree topics rels ∧
          degree rels q.2.id > medianDegree topics rels ∧
          directEdge rels q.1.id q.2.id = false then
        some [q.1.id, q.2.id] else none) := by
    intro q _
    split <;> rfl
  rw [List.filterMap_congr hstep]
  rw [filterMap_ite_eq_map_filter (fun q : Topic × Topic =>
    degree rels q.1.id > medianDegree topics rels ∧
    degree rels q.2.id > medianDegree topics rels ∧
    directEdge rels q.1.id q.2.id = false) (fun q => [q.1.id, q.2.id]) (listPairs topics)]
  refine List.Nodup.sublist (List.Sublist.map _ (List.filter_sublist _)) ?_
  have heq2 : (listPairs topics).map (fun q => [q.1.id, q.2.id]) =
      ((listPairs topics).map (fun q => (q.1.id, q.2.id))).map (fun p => [p.1, p.2]) := by
    rw [List.map_map]
    rfl
  rw [heq2]
  refine List.Nodup.map ?_ hplain
  intro p1 p2 hpe
  simp only [List.cons.injEq, and_true] at hpe
  exact Prod.ext hpe.1 hpe.2

/-- The five-topic scenario of the claim: topics A and B have degree 3 each,
the median degree is 2, and A, B are not directly connected. -/
def scenarioTopics : List Topic :=
  [⟨"A".toList, "Alpha".toList, "alpha".toList, 1, 1⟩,
   ⟨"B".toList, "Beta".toList, "beta".toList, 1, 1⟩,
   ⟨"C".toList, "Gamma".toList, "gamma".toList, 1, 1⟩,
   ⟨"D".toList, "Delta".toList, "delta".toList, 1, 1⟩,
   ⟨"E".toList, "Epsilon".toList, "epsilon".toList, 1, 1⟩]

/-- The relationships of the five-topic scenario. -/
def scenarioRels : List TopicRelationship :=
  [⟨"r1".toList, "A".toList, "C".toList, "related".toList, 1⟩,
   ⟨"r2".toList, "A".toList, "D".toList, "related".toList, 1⟩,
   ⟨"r3".toList, "A".toList, "E".toList, "related".toList, 1⟩,
   ⟨"r4".toList, "B".toList, "C".toList, "related".toList, 1⟩,
   ⟨"r5".toList, "B".toList, "D".toList, "related".toList, 1⟩,
   ⟨"r6".toList, "B".toList, "E".toList, "related".toList, 1⟩]

/-- C4: with at least 2 topics and distinct colon-free ids, the structural
pass emits exactly one gap per unordered pair of above-median-degree topics
lacking a direct edge, with the spec's significance formula, sorted in
descending significance and truncated to 20; fewer than 2 topics give the
empty list; in the 5-topic scenario the result is exactly one gap containing
A and B with significance 0.8. -/
theorem findStructuralGaps_spec (topics : List Topic) (rels : List TopicRelationship)
    (hN : (topics.map (fun t => t.id)).Nodup)
    (hTcol : ∀ t ∈ topics, ':' ∉ t.id)
    (hRcol : ∀ r ∈ rels, ':' ∉ r.sourceId ∧ ':' ∉ r.targetId) :
    (topics.length < 2 → findStructuralGaps topics rels = []) ∧
    (2 ≤ topics.length → findStructuralGaps topics rels =
      (sortGapsDesc (specStructuralGapsRaw topics rels)).take 20) ∧
    ((specStructuralGapsRaw topics rels).map (fun g => g.topicIds)).Nodup ∧
    (findStructuralGaps topics rels).Pairwise
      (fun x y => y.significance ≤ x.significance) ∧
    (findStructuralGaps topics rels).length ≤ 20 ∧
    ((findStructuralGaps scenarioTopics scenarioRels).map
      (fun g => (g.topicIds, g.significance)) =
      [(["A".toList, "B".toList], gapSignificance 5 3 3)] ∧
     gapSignificance 5 3 3 = 4/5) := by
  refine ⟨?_, ?_, specStructuralGapsRaw_topicIds_nodup topics rels hN, ?_, ?_,
    rfl, by norm_num [gapSignificance, min_def]⟩
  · intro h
    unfold findStructuralGaps
    rw [if_pos h]
  · intro h
    unfold findStructuralGaps
    rw [if_neg (by omega), structuralGapsRaw_eq_spec topics rels hTcol hRcol]
  · unfold findStructuralGaps
    by_cases h : topics.length < 2
    · rw [if_pos h]
      exact List.Pairwise.nil
    · rw [if_neg h]
      exact List.Pairwise.sublist (List.take_sublist _ _) (sortGapsDesc_sorted _)
  · unfold findStructuralGaps
    by_cases h : topics.length < 2
    · rw [if_pos h]
      simp
    · rw [if_neg h]
      exact List.length_take_le _ _

/-- C4 witness: the theorem applied to the concrete five-topic scenario. -/
theorem findStructuralGaps_spec_witness :
    findStructuralGaps scenarioTopics scenarioRels =
      (sortGapsDesc (specStructuralGapsRaw scenarioTopics scenarioRels)).take 20 := by
  exact (findStructuralGaps_spec scenarioTopics scenarioRels
    (by decide) (by decide) (by decide)).2.1 (by decide)

/-! ## C1: chunker invariants under the default options -/

lemma lastIndexOfPara_bound : ∀ (l : Str) (i : Nat),
    lastIndexOfPara l = some i → i + 2 ≤ l.length := by
  intro l
  induction l with
  | nil => intro i h; simp [lastIndexOfPara] at h
  | cons a rest ih =>
    intro i h
    cases rest with
    | nil => simp [lastIndexOfPara] at h
    | cons b t =>
      rw [lastIndexOfPara] at h
      cases hrec : lastIndexOfPara (b :: t) with
      | some j =>
        rw [hrec] at h
        obtain rfl : j + 1 = i := by simpa using h
        have := ih j hrec
        simp only [List.length_cons] at this ⊢
        omega
      | none =>
        rw [hrec] at h
        simp at h
        obtain ⟨-, h2⟩ := h
        simp only [List.length_cons]
        omega

lemma sentenceMatchLen_bound : ∀ (l : Str) (k : Nat),
    sentenceMatchLen l = some k → 2 ≤ k ∧ k ≤ l.length := by
  intro l
  induction l with
  | nil => intro k h; simp [sentenceMatchLen] at h
  | cons a rest ih =>
    intro k h
    cases rest with
    | nil => simp [sentenceMatchLen] at h
    | cons b t =>
      rw [sentenceMatchLen] at h
      cases hrec : sentenceMatchLen (b :: t) with
      | some j =>
        rw [hrec] at h
        obtain rfl : j + 1 = k := by simpa using h
        have := ih j hrec
        simp only [List.length_cons] at this ⊢
        omega
      | none =>
        rw [hrec] at h
        simp at h
        obtain ⟨-, h2⟩ := h
        simp only [List.length_cons]
        omega

lemma lastIndexOfSpace_bound : ∀ (l : Str) (i : Nat),
    lastIndexOfSpace l = some i → i + 1 ≤ l.length := by
  intro l
  induction l with
  | nil => intro i h; simp [lastIndexOfSpace] at h
  | cons a rest ih =>
    intro i h
    rw [lastIndexOfSpace] at h
    cases hrec : lastIndexOfSpace rest with
    | some j =>
      rw [hrec] at h
      obtain rfl : j + 1 = i := by simpa using h
      have := ih j hrec
      simp only [List.length_cons]
      omega
    | none =>
      rw [hrec] at h
      simp at h
      obtain ⟨-, h2⟩ := h
      simp only [List.length_cons]
      omega

lemma findBreakPoint_bounds (text : Str) (target : Nat) (hlt : target < text.length)
    (h200 : 200 ≤ target) :
    target - 200 + 1 ≤ findBreakPoint text target ∧ findBreakPoint text target ≤ target := by
  unfold findBreakPoint
  rw [if_neg (by omega)]
  have hregion : (slice text (target - 200) target).length = 200 := by
    unfold slice
    rw [List.length_take, List.length_drop]
    omega
  cases hpara : lastIndexOfPara (slice text (target - 200) target) with
  | some paraIndex =>
    have := lastIndexOfPara_bound _ _ hpara
    rw [hregion] at this
    simp only []
    omega
  | none =>
    cases hsent : sentenceMatchLen (slice text (target - 200) target) with
    | some k =>
      have := sentenceMatchLen_bound _ _ hsent
      rw [hregion] at this
      simp only []
      omega
    | none =>
      cases hspace : lastIndexOfSpace (slice text (target - 200) target) with
      | some spaceIndex =>
        have := lastIndexOfSpace_bound _ _ hspace
        rw [hregion] at this
        simp only []
        omega
      | none =>
        simp only []
        omega

lemma chunkEnd_default_bounds (text : Str) (s : Nat) (hs : s < text.length) :
    s < chunkEnd DEFAULT_OPTIONS text s ∧ chunkEnd DEFAULT_OPTIONS text s ≤ text.length ∧
    (chunkEnd DEFAULT_OPTIONS text s < text.length →
      s + 1301 ≤ chunkEnd DEFAULT_OPTIONS text s ∧
      chunkEnd DEFAULT_OPTIONS text s ≤ s + 1500) := by
  have hcs : DEFAULT_OPTIONS.chunkSize = 1500 := rfl
  have hraw : (s + 1500 ≥ text.length ∧ rawChunkEnd DEFAULT_OPTIONS text s = text.length) ∨
      (s + 1500 < text.length ∧ s + 1301 ≤ rawChunkEnd DEFAULT_OPTIONS text s ∧
        rawChunkEnd DEFAULT_OPTIONS text s ≤ s + 1500) := by
    unfold rawChunkEnd
    rw [hcs]
    by_cases h : s + 1500 ≥ text.length
    · rw [if_pos h]
      exact Or.inl ⟨h, rfl⟩
    · rw [if_neg h]
      have hb := findBreakPoint_bounds text (s + 1500) (by omega) (by omega)
      exact Or.inr ⟨by omega, by omega, by omega⟩
  rcases hraw with ⟨h1, h2⟩ | ⟨h1, h2, h3⟩
  · have heq : chunkEnd DEFAULT_OPTIONS text s = text.length := by
      unfold chunkEnd
      rw [h2, if_neg (by omega)]
    rw [heq]
    omega
  · have heq : chunkEnd DEFAULT_OPTIONS text s = rawChunkEnd DEFAULT_OPTIONS text s := by
      unfold chunkEnd
      rw [if_neg (by omega)]
    rw [heq]
    omega

lemma chunkLoop_spec (docId text : Str) :
    ∀ (fuel s i : Nat), s < text.length → text.length - s ≤ fuel →
      (chunkLoop DEFAULT_OPTIONS docId text fuel s i ≠ [] ∧
       (∀ c, (chunkLoop DEFAULT_OPTIONS docId text fuel s i).head? = some c →
         c.startOffset = s) ∧
       (∀ k c, (chunkLoop DEFAULT_OPTIONS docId text fuel s i)[k]? = some c →
         c.chunkIndex = i + k ∧ c.content = slice text c.startOffset c.endOffset ∧
         c.endOffset ≤ text.length) ∧
       (∀ c, (chunkLoop DEFAULT_OPTIONS docId text fuel s i).getLast? = some c →
         c.endOffset = text.length) ∧
       List.Chain' (fun c d => c.startOffset < d.startOffset ∧ d.startOffset < c.endOffset)
         (chunkLoop DEFAULT_OPTIONS docId text fuel s i)) := by
  intro fuel
  induction fuel with
  | zero => intro s i hs hfuel; omega
  | succ fuel ih =>
    intro s i hs hfuel
    obtain ⟨he1, he2, he3⟩ := chunkEnd_default_bounds text s hs
    rw [chunkLoop, if_pos hs]
    by_cases hend : chunkEnd DEFAULT_OPTIONS text s ≥ text.length
    · have heq : chunkEnd DEFAULT_OPTIONS text s = text.length := by omega
      rw [if_pos hend]
      refine ⟨by simp, ?_, ?_, ?_, ?_⟩
      · intro c hc
        rw [List.head?_cons, Option.some.injEq] at hc
        rw [← hc]
      · intro k c hc
        cases k with
        | zero =>
          rw [List.getElem?_cons_zero, Option.some.injEq] at hc
          rw [← hc]
          exact ⟨rfl, rfl, he2⟩
        | succ k =>
          rw [List.getElem?_cons_succ, List.getElem?_nil] at hc
          simp at hc
      · intro c hc
        simp only [List.getLast?_singleton, Option.some.injEq] at hc
        rw [← hc]
        exact heq
      · exact List.chain'_singleton _
    · rw [if_neg hend]
      have hlt : chunkEnd DEFAULT_OPTIONS text s < text.length := by omega
      obtain ⟨hlo, hhi⟩ := he3 hlt
      have hstep : s + max (chunkEnd DEFAULT_OPTIONS text s - s - DEFAULT_OPTIONS.chunkOverlap) 1 =
          chunkEnd DEFAULT_OPTIONS text s - 200 := by
        have hco : DEFAULT_OPTIONS.chunkOverlap = 200 := rfl
        rw [hco]
        omega
      rw [hstep]
      have hs' : chunkEnd DEFAULT_OPTIONS text s - 200 < text.length := by omega
      have hfuel' : text.length - (chunkEnd DEFAULT_OPTIONS text s - 200) ≤ fuel := by omega
      obtain ⟨ihne, ihhead, ihget, ihlast, ihchain⟩ :=
        ih (chunkEnd DEFAULT_OPTIONS text s - 200) (i + 1) hs' hfuel'
      obtain ⟨r, rs, hrec⟩ := List.exists_cons_of_ne_nil ihne
      have hrstart : r.startOffset = chunkEnd DEFAULT_OPTIONS text s - 200 := by
        refine ihhead r ?_
        rw [hrec]
        rfl
      refine ⟨by simp, ?_, ?_, ?_, ?_⟩
      · intro c hc
        rw [List.head?_cons, Option.some.injEq] at hc
        rw [← hc]
      · intro k c hc
        cases k with
        | zero =>
          rw [List.getElem?_cons_zero, Option.some.injEq] at hc
          rw [← hc]
          exact ⟨rfl, rfl, he2⟩
        | succ k =>
          rw [List.getElem?_cons_succ] at hc
          obtain ⟨ha, hb', hc'⟩ := ihget k c hc
          exact ⟨by omega, hb', hc'⟩
      · intro c hc
        rw [hrec, List.getLast?_cons_cons] at hc
        refine ihlast c ?_
        rw [hrec]
        exact hc
      · rw [hrec, List.chain'_cons]
        constructor
        · refine ⟨?_, ?_⟩ <;> simp only [hrstart] <;> omega
        · rw [← hrec]
          exact ihchain

/-- C1: under the default options (chunkSize 1500, chunkOverlap 200) every
chunk's content is `text.slice(startOffset, endOffset)` with a sequential
`chunkIndex` starting at 0 and `endOffset ≤ text.length`; a non-empty result
starts at offset 0 and its last chunk ends at `text.length`; and every
consecutive pair of chunks satisfies
`chunks[i].startOffset < chunks[i+1].startOffset < chunks[i].endOffset`. -/
theorem chunkText_default_invariants (text docId : Str) :
    (∀ (k : Nat) (c : TextChunk), (chunkText text docId DEFAULT_OPTIONS)[k]? = some c →
      c.content = slice text c.startOffset c.endOffset ∧ c.chunkIndex = k ∧
      c.endOffset ≤ text.length) ∧
    (∀ c : TextChunk, (chunkText text docId DEFAULT_OPTIONS).head? = some c →
      c.startOffset = 0) ∧
    (∀ c : TextChunk, (chunkText text docId DEFAULT_OPTIONS).getLast? = some c →
      c.endOffset = text.length) ∧
    List.Chain' (fun c d => c.startOffset < d.startOffset ∧ d.startOffset < c.endOffset)
      (chunkText text docId DEFAULT_OPTIONS) := by
  unfold chunkText
  by_cases htrim : (jsTrim text).length = 0
  · rw [if_pos htrim]
    refine ⟨?_, ?_, ?_, ?_⟩ <;> simp
  · rw [if_neg htrim]
    have htext : text ≠ [] := by
      intro he
      exact htrim (by simp [he, jsTrim])
    have hlen : 0 < text.length := List.length_pos.mpr htext
    obtain ⟨hne, hhead, hget, hlast, hchain⟩ :=
      chunkLoop_spec docId text text.length 0 0 hlen (by omega)
    refine ⟨?_, ?_, hlast, hchain⟩
    · intro k c hc
      have := hget k c hc
      exact ⟨this.2.1, by simpa using this.1, this.2.2⟩
    · exact hhead

/-- C1 witness: the invariants evaluated on a concrete short text. -/
theorem chunkText_default_invariants_witness :
    (chunkText "hi".toList "d".toList DEFAULT_OPTIONS)[0]? =
      some ⟨"d".toList, "hi".toList, 0, 2, 0⟩ ∧
    ("hi".toList : Str) = slice "hi".toList 0 2 ∧
    (2 : Nat) ≤ ("hi".toList).length := by
  have h := (chunkText_default_invariants "hi".toList "d".toList).1 0
    ⟨"d".toList, "hi".toList, 0, 2, 0⟩ (by decide)
  exact ⟨by decide, h.1, h.2.2⟩

/-! ## C10: idempotence of the label normalizer -/

/-- Whether a string starts with a whitespace character. -/
def headIsWs : Str → Bool
  | [] => false
  | c :: _ => isJsWhitespace c

/-- A string is a fixed point of whitespace collapsing: every whitespace
character in it is a single space not followed by more whitespace. -/
def collapsedOK : Str → Bool
  | [] => true
  | c :: rest =>
    (!(isJsWhitespace c) || (c == ' ' && !(headIsWs rest))) && collapsedOK rest

lemma jsToLower_fix (c : Char) : jsToLower (jsToLower c) = jsToLower c := by
  unfold jsToLower
  by_cases h : 'A' ≤ c ∧ c ≤ 'Z'
  · rw [if_pos h]
    have h65 : 65 ≤ c.toNat := h.1
    have h90 : c.toNat ≤ 90 := h.2
    have hv : (c.toNat + 32).isValidChar := Or.inl (by omega)
    have htn : (Char.ofNat (c.toNat + 32)).toNat = c.toNat + 32 := by
      unfold Char.ofNat
      rw [dif_pos hv]
      unfold Char.ofNatAux
      rfl
    rw [if_neg]
    intro hcon
    have hle : (Char.ofNat (c.toNat + 32)).toNat ≤ 90 := hcon.2
    omega
  · rw [if_neg h, if_neg h]

lemma lowerStr_fix (l : Str) (h : ∀ c ∈ l, jsToLower c = c) : lowerStr l = l := by
  induction l with
  | nil => rfl
  | cons c t ih =>
    unfold lowerStr
    rw [List.map_cons, h c (List.mem_cons_self _ _)]
    have h2 := ih (fun d hd => h d (List.mem_cons_of_mem _ hd))
    unfold lowerStr at h2
    rw [h2]

lemma collapseAux_cons_ws_true (d : Char) (t : Str) (hd : isJsWhitespace d = true) :
    collapseAux true (d :: t) = collapseAux true t := by
  rw [collapseAux, if_pos hd, if_pos rfl]

lemma collapseAux_cons_ws_false (d : Char) (t : Str) (hd : isJsWhitespace d = true) :
    collapseAux false (d :: t) = ' ' :: collapseAux true t := by
  rw [collapseAux, if_pos hd, if_neg (by simp)]

lemma collapseAux_cons_not_ws (b : Bool) (d : Char) (t : Str)
    (hd : isJsWhitespace d = false) :
    collapseAux b (d :: t) = d :: collapseAux false t := by
  rw [collapseAux, if_neg (by simp [hd])]

lemma headIsWs_cons (d : Char) (t : Str) : headIsWs (d :: t) = isJsWhitespace d := rfl

lemma collapsedOK_cons (d : Char) (t : Str) :
    collapsedOK (d :: t) =
      ((!(isJsWhitespace d) || (d == ' ' && !(headIsWs t))) && collapsedOK t) := rfl

lemma mem_collapseAux : ∀ (b : Bool) (l : Str) (c : Char),
    c ∈ collapseAux b l → c = ' ' ∨ c ∈ l := by
  intro b l
  induction l generalizing b with
  | nil => intro c hc; simp [collapseAux] at hc
  | cons d t ih =>
    intro c hc
    by_cases hd : isJsWhitespace d = true
    · cases b with
      | true =>
        rw [collapseAux_cons_ws_true d t hd] at hc
        rcases ih true c hc with h2 | h2
        · exact Or.inl h2
        · exact Or.inr (List.mem_cons_of_mem _ h2)
      | false =>
        rw [collapseAux_cons_ws_false d t hd] at hc
        rcases List.mem_cons.mp hc with h2 | h2
        · exact Or.inl h2
        · rcases ih true c h2 with h3 | h3
          · exact Or.inl h3
          · exact Or.inr (List.mem_cons_of_mem _ h3)
    · have hd' : isJsWhitespace d = false := by simpa using hd
      rw [collapseAux_cons_not_ws b d t hd'] at hc
      rcases List.mem_cons.mp hc with h2 | h2
      · exact Or.inr (h2 ▸ List.mem_cons_self _ _)
      · rcases ih false c h2 with h3 | h3
        · exact Or.inl h3
        · exact Or.inr (List.mem_cons_of_mem _ h3)

lemma mem_jsTrim (l : Str) (c : Char) (hc : c ∈ jsTrim l) : c ∈ l := by
  unfold jsTrim at hc
  rw [List.mem_reverse] at hc
  have h1 := (List.dropWhile_sublist _).mem hc
  rw [List.mem_reverse] at h1
  exact (List.dropWhile_sublist _).mem h1

lemma headIsWs_collapseAux_true : ∀ l : Str, headIsWs (collapseAux true l) = false := by
  intro l
  induction l with
  | nil => rfl
  | cons d t ih =>
    by_cases hd : isJsWhitespace d = true
    · rw [collapseAux_cons_ws_true d t hd]
      exact ih
    · have hd' : isJsWhitespace d = false := by simpa using hd
      rw [collapseAux_cons_not_ws true d t hd', headIsWs_cons]
      exact hd'

lemma collapsedOK_collapseAux : ∀ (l : Str) (b : Bool),
    collapsedOK (collapseAux b l) = true := by
  intro l
  induction l with
  | nil => intro b; rfl
  | cons d t ih =>
    intro b
    by_cases hd : isJsWhitespace d = true
    · cases b with
      | true =>
        rw [collapseAux_cons_ws_true d t hd]
        exact ih true
      | false =>
        rw [collapseAux_cons_ws_false d t hd, collapsedOK_cons,
          headIsWs_collapseAux_true, ih true]
        decide
    · have hd' : isJsWhitespace d = false := by simpa using hd
      rw [collapseAux_cons_not_ws b d t hd', collapsedOK_cons, ih false, hd']
      rfl

lemma collapseAux_true_eq_false (l : Str) (h : headIsWs l = false) :
    collapseAux true l = collapseAux false l := by
  cases l with
  | nil => rfl
  | cons d t =>
    rw [headIsWs_cons] at h
    rw [collapseAux_cons_not_ws true d t h, collapseAux_cons_not_ws false d t h]

lemma collapseWs_fix : ∀ l : Str, collapsedOK l = true → collapseWs l = l := by
  intro l
  induction l with
  | nil => intro _; rfl
  | cons d t ih =>
    intro h
    rw [collapsedOK_cons, Bool.and_eq_true] at h
    obtain ⟨hcond, hrest⟩ := h
    unfold collapseWs
    by_cases hd : isJsWhitespace d = true
    · simp only [hd, Bool.not_true, Bool.false_or, Bool.and_eq_true, beq_iff_eq,
        Bool.not_eq_true'] at hcond
      obtain ⟨hsp, hhw⟩ := hcond
      rw [collapseAux_cons_ws_false d t hd, collapseAux_true_eq_false t hhw]
      have h2 := ih hrest
      unfold collapseWs at h2
      rw [h2, hsp]
    · have hd' : isJsWhitespace d = false := by simpa using hd
      rw [collapseAux_cons_not_ws false d t hd']
      have h2 := ih hrest
      unfold collapseWs at h2
      rw [h2]

lemma headIsWs_dropLast (l : Str) (h : headIsWs l.dropLast = true) :
    headIsWs l = true := by
  cases l with
  | nil => simp [headIsWs] at h
  | cons d t =>
    cases t with
    | nil => simp [List.dropLast, headIsWs] at h
    | cons e u =>
      rw [show (d :: e :: u).dropLast = d :: (e :: u).dropLast from rfl,
        headIsWs_cons] at h
      rw [headIsWs_cons]
      exact h

lemma collapsedOK_dropLast : ∀ l : Str, collapsedOK l = true →
    collapsedOK l.dropLast = true := by
  intro l
  induction l with
  | nil => intro _; rfl
  | cons d t ih =>
    intro h
    rw [collapsedOK_cons, Bool.and_eq_true] at h
    obtain ⟨hcond, hrest⟩ := h
    cases t with
    | nil => rfl
    | cons e u =>
      rw [show (d :: e :: u).dropLast = d :: (e :: u).dropLast from rfl,
        collapsedOK_cons, Bool.and_eq_true]
      refine ⟨?_, ih hrest⟩
      rcases Bool.or_eq_true_iff.mp hcond with h1 | h1
      · rw [h1]
        rfl
      · rw [Bool.and_eq_true] at h1
        obtain ⟨hsp, hhw⟩ := h1
        have hhw2 : headIsWs (e :: u).dropLast = false := by
          rcases Bool.eq_false_or_eq_true (headIsWs (e :: u).dropLast) with h2 | h2
          · rw [headIsWs_dropLast _ h2] at hhw
            simp at hhw
          · exact h2
        rw [hsp, hhw2]
        simp

lemma dropWhile_head?_not (p : Char → Bool) : ∀ (l : Str) (c : Char),
    (l.dropWhile p).head? = some c → p c = false := by
  intro l
  induction l with
  | nil => intro c hc; simp at hc
  | cons d t ih =>
    intro c hc
    rw [List.dropWhile_cons] at hc
    by_cases hd : p d = true
    · rw [if_pos hd] at hc
      exact ih c hc
    · rw [if_neg hd] at hc
      rw [List.head?_cons, Option.some.injEq] at hc
      rw [← hc]
      simpa using hd

lemma dropWhile_eq_self (p : Char → Bool) (l : Str)
    (h : ∀ c, l.head? = some c → p c = false) : l.dropWhile p = l := by
  cases l with
  | nil => rfl
  | cons d t =>
    rw [List.dropWhile_cons, if_neg]
    rw [h d rfl]
    simp

lemma jsTrim_fix (l : Str)
    (hhead : ∀ c, l.head? = some c → isJsWhitespace c = false)
    (hlast : ∀ c, l.getLast? = some c → isJsWhitespace c = false) :
    jsTrim l = l := by
  unfold jsTrim
  rw [dropWhile_eq_self _ _ hhead]
  rw [dropWhile_eq_self _ _ (fun c hc => hlast c (by rwa [List.head?_reverse] at hc))]
  exact List.reverse_reverse l

lemma jsTrim_head_not_ws (l : Str) : ∀ c, (jsTrim l).head? = some c →
    isJsWhitespace c = false := by
  intro c hc
  unfold jsTrim at hc
  rw [List.head?_reverse] at hc
  have hmne : (l.dropWhile isJsWhitespace).reverse.dropWhile isJsWhitespace ≠ [] := by
    intro he
    rw [he] at hc
    simp at hc
  have hlast2 : ((l.dropWhile isJsWhitespace).reverse).getLast? = some c := by
    rw [← List.takeWhile_append_dropWhile isJsWhitespace
      (l.dropWhile isJsWhitespace).reverse]
    rw [List.getLast?_append_of_ne_nil _ hmne]
    exact hc
  rw [List.getLast?_reverse] at hlast2
  exact dropWhile_head?_not isJsWhitespace l c hlast2

lemma collapseWs_head_not_ws (l : Str)
    (h : ∀ c, l.head? = some c → isJsWhitespace c = false) :
    ∀ c, (collapseWs l).head? = some c → isJsWhitespace c = false := by
  cases l with
  | nil => intro c hc; simp [collapseWs, collapseAux] at hc
  | cons d t =>
    intro c hc
    have hd : isJsWhitespace d = false := h d rfl
    unfold collapseWs at hc
    rw [collapseAux_cons_not_ws false d t hd] at hc
    rw [List.head?_cons, Option.some.injEq] at hc
    rw [← hc]
    exact hd

lemma phase1_lower_fix (x : Str) :
    ∀ c ∈ collapseWs (jsTrim (lowerStr x)), jsToLower c = c := by
  intro c hc
  rcases mem_collapseAux false _ c hc with h | h
  · rw [h]
    decide
  · have h2 := mem_jsTrim _ _ h
    obtain ⟨d, _, rfl⟩ := List.mem_map.mp h2
    exact jsToLower_fix d

lemma phase1_fix (n : Str)
    (hlow : ∀ c ∈ n, jsToLower c = c)
    (hok : collapsedOK n = true)
    (hhead : ∀ c, n.head? = some c → isJsWhitespace c = false)
    (hlast : ∀ c, n.getLast? = some c → isJsWhitespace c = false) :
    collapseWs (jsTrim (lowerStr n)) = n := by
  rw [lowerStr_fix n hlow, jsTrim_fix n hhead hlast, collapseWs_fix n hok]

lemma dropLast_head? (l : Str) (h : 2 ≤ l.length) : l.dropLast.head? = l.head? := by
  cases l with
  | nil => simp at h
  | cons d t =>
    cases t with
    | nil => simp at h
    | cons e u => rfl

/-- C10 counterexample: `normalizeLabel "ab s"` is `"ab "` — stripping the
trailing `s` exposes a trailing space — and a second application trims it to
`"ab"`, so `normalizeLabel` is not idempotent. -/
theorem normalizeLabel_not_idempotent :
    normalizeLabel (normalizeLabel "ab s".toList) ≠ normalizeLabel "ab s".toList ∧
    normalizeLabel "ab s".toList = "ab ".toList ∧
    normalizeLabel "ab ".toList = "ab".toList := by
  exact ⟨by decide, by decide, by decide⟩

/-- C10 (amended): `normalizeLabel` is idempotent on every input whose
normalization does not end in a whitespace character (whitespace can be
exposed only when the stripped trailing `s` was preceded by whitespace). -/
theorem normalizeLabel_idempotent_amended (x : Str)
    (h : ∀ c, (normalizeLabel x).getLast? = some c → isJsWhitespace c = false) :
    normalizeLabel (normalizeLabel x) = normalizeLabel x := by
  set m := collapseWs (jsTrim (lowerStr x)) with hm
  have hlowm : ∀ c ∈ m, jsToLower c = c := phase1_lower_fix x
  have hokm : collapsedOK m = true := collapsedOK_collapseAux _ false
  have hheadm : ∀ c, m.head? = some c → isJsWhitespace c = false :=
    collapseWs_head_not_ws _ (jsTrim_head_not_ws _)
  have hs1 : "s".toList = ['s'] := rfl
  have hnx : normalizeLabel x = (if m.length > 3 ∧ jsEndsWith m "s".toList ∧
      ¬ isSingularizationException m then m.dropLast else m) := by
    rw [hm]
    rfl
  by_cases hcond : m.length > 3 ∧ jsEndsWith m "s".toList ∧
      ¬ isSingularizationException m
  · have hn : normalizeLabel x = m.dropLast := by rw [hnx, if_pos hcond]
    obtain ⟨t, ht⟩ : ("s".toList) <:+ m := List.isSuffixOf_iff_suffix.mp hcond.2.1
    have hdl : m.dropLast = t := by
      rw [← ht, hs1]
      exact List.dropLast_concat
    have hlen4 : 4 ≤ m.length := by
      have := hcond.1
      omega
    have hlow_n : ∀ c ∈ m.dropLast, jsToLower c = c :=
      fun c hc => hlowm c (List.mem_of_mem_dropLast hc)
    have hok_n : collapsedOK m.dropLast = true := collapsedOK_dropLast m hokm
    have hhead_n : ∀ c, m.dropLast.head? = some c → isJsWhitespace c = false := by
      intro c hc
      rw [dropLast_head? m (by omega)] at hc
      exact hheadm c hc
    have hlast_n : ∀ c, m.dropLast.getLast? = some c → isJsWhitespace c = false := by
      intro c hc
      refine h c ?_
      rw [hn]
      exact hc
    have hfix : collapseWs (jsTrim (lowerStr m.dropLast)) = m.dropLast :=
      phase1_fix _ hlow_n hok_n hhead_n hlast_n
    have hnoend : jsEndsWith m.dropLast "s".toList = false := by
      rcases Bool.eq_false_or_eq_true (jsEndsWith m.dropLast "s".toList) with h2 | h2
      swap
      · exact h2
      · exfalso
        obtain ⟨t', ht'⟩ : ("s".toList) <:+ m.dropLast :=
          List.isSuffixOf_iff_suffix.mp h2
        have hss : jsEndsWith m "ss".toList = true := by
          unfold jsEndsWith
          refine List.isSuffixOf_iff_suffix.mpr ⟨t', ?_⟩
          rw [show ("ss".toList : Str) = ['s'] ++ ['s'] from rfl, ← List.append_assoc]
          rw [show (t' ++ ['s'] : Str) = t' ++ "s".toList from rfl, ht', hdl, ← hs1, ht]
        have hexc : isSingularizationException m = true := by
          unfold isSingularizationException
          split
          · rfl
          · rw [hss]
            rfl
        exact hcond.2.2 hexc
    rw [hn]
    have heq : normalizeLabel m.dropLast = (if (m.dropLast).length > 3 ∧
        jsEndsWith m.dropLast "s".toList ∧
        ¬ isSingularizationException m.dropLast then (m.dropLast).dropLast
      else m.dropLast) := by
      unfold normalizeLabel
      rw [hfix]
    rw [heq, if_neg]
    rintro ⟨-, h2, -⟩
    rw [hnoend] at h2
    exact Bool.false_ne_true h2
  · have hn : normalizeLabel x = m := by rw [hnx, if_neg hcond]
    have hlast_m : ∀ c, m.getLast? = some c → isJsWhitespace c = false := by
      intro c hc
      refine h c ?_
      rw [hn]
      exact hc
    have hfix : collapseWs (jsTrim (lowerStr m)) = m :=
      phase1_fix m hlowm hokm hheadm hlast_m
    rw [hn]
    have heq : normalizeLabel m = (if m.length > 3 ∧ jsEndsWith m "s".toList ∧
        ¬ isSingularizationException m then m.dropLast else m) := by
      unfold normalizeLabel
      rw [hfix]
    rw [heq, if_neg hcond]

/-- C10 witness: idempotence at a concrete clean input. -/
theorem normalizeLabel_idempotent_amended_witness :
    normalizeLabel (normalizeLabel "cells".toList) = normalizeLabel "cells".toList := by
  exact normalizeLabel_idempotent_amended "cells".toList (by decide)

/-! ## C7: document deletion -/

/-- Total number of occurrences of a topic id among the claims' `topicIds`
lists (a claim listing the id twice counts twice, exactly as the counting
loop of `deleteDocument` and the increments of `upsertTopic` do). -/
def occCount (cs : List Claim) (tid : Str) : Nat :=
  (cs.map (fun c => c.topicIds.count tid)).sum

/-- Value of an insertion-ordered association list at a key. -/
def lookupCount (m : List (Str × Nat)) (k : Str) : Nat :=
  match m.find? (fun p => p.1 == k) with
  | some p => p.2
  | none => 0

/-- A concrete database: one document `d` with one claim listing topic `t`
twice, topic `t` with `claimCount` 5 (other documents account for the other
references). -/
def c7ExDb : DB :=
  ⟨[⟨"d".toList, "doc".toList, "h".toList⟩], [],
   [⟨"c1".toList, "d".toList, "x".toList, "finding".toList, 0,
     ["t".toList, "t".toList]⟩],
   [⟨"t".toList, "T".toList, "t".toList, 5, 2⟩], []⟩

/-- C7 counterexample: exactly one deleted claim references topic `t`, yet
`deleteDocument` decrements the topic's `claimCount` by 2 (the number of
occurrences in the claim's `topicIds` list), not by 1. -/
theorem deleteDocument_decrement_counterexample :
    ((deleteDocument "d".toList c7ExDb).topics.map (fun t => t.claimCount)) = [3] ∧
    ((c7ExDb.claims.filter (fun c => c.documentId == "d".toList)).filter
      (fun c => "t".toList ∈ c.topicIds)).length = 1 ∧
    (3 : ℤ) ≠ 5 - 1 := by
  exact ⟨by decide, by decide, by decide⟩

lemma lookupCount_nil (k : Str) : lookupCount [] k = 0 := rfl

lemma lookupCount_cons (p : Str × Nat) (m : List (Str × Nat)) (k : Str) :
    lookupCount (p :: m) k = if p.1 == k then p.2 else lookupCount m k := by
  cases h : (p.1 == k) <;> simp [lookupCount, List.find?_cons, h]

lemma lookupCount_bumpCount_same (k : Str) : ∀ m : List (Str × Nat),
    lookupCount (bumpCount m k) k = lookupCount m k + 1 := by
  intro m
  induction m with
  | nil => simp [bumpCount, lookupCount_cons, lookupCount_nil]
  | cons p m' ih =>
    by_cases hp : (p.1 == k) = true
    · rw [bumpCount, if_pos hp]
      simp [lookupCount_cons, hp]
    · rw [bumpCount, if_neg hp]
      simp [lookupCount_cons, hp, ih]

lemma lookupCount_bumpCount_other (k k' : Str) (hne : ¬ k' = k) :
    ∀ m : List (Str × Nat), lookupCount (bumpCount m k) k' = lookupCount m k' := by
  intro m
  induction m with
  | nil =>
    have h : (k == k') = false := by
      simp only [beq_eq_false_iff_ne, ne_eq]
      exact fun h => hne h.symm
    simp [bumpCount, lookupCount_cons, lookupCount_nil, h]
  | cons p m' ih =>
    by_cases hp : (p.1 == k) = true
    · rw [bumpCount, if_pos hp]
      have hq : (p.1 == k') = false := by
        have hpk : p.1 = k := by simpa using hp
        simp only [hpk, beq_eq_false_iff_ne, ne_eq]
        exact fun h => hne h.symm
      simp [lookupCount_cons, hq]
    · rw [bumpCount, if_neg hp]
      simp [lookupCount_cons, ih]

lemma mem_keys_bumpCount (k : Str) : ∀ (m : List (Str × Nat)) (k' : Str),
    k' ∈ (bumpCount m k).map (fun p => p.1) ↔
      k' = k ∨ k' ∈ m.map (fun p => p.1) := by
  intro m
  induction m with
  | nil =>
    intro k'
    simp [bumpCount]
  | cons p m' ih =>
    intro k'
    by_cases hp : (p.1 == k) = true
    · rw [bumpCount, if_pos hp]
      have hpk : p.1 = k := by simpa using hp
      simp only [List.map_cons, List.mem_cons, hpk]
      tauto
    · rw [bumpCount, if_neg hp]
      simp only [List.map_cons, List.mem_cons, ih]
      tauto

lemma nodup_keys_bumpCount (k : Str) : ∀ m : List (Str × Nat),
    (m.map (fun p => p.1)).Nodup → ((bumpCount m k).map (fun p => p.1)).Nodup := by
  intro m
  induction m with
  | nil =>
    intro _
    simp [bumpCount]
  | cons p m' ih =>
    intro h
    rw [List.map_cons, List.nodup_cons] at h
    by_cases hp : (p.1 == k) = true
    · rw [bumpCount, if_pos hp, List.map_cons, List.nodup_cons]
      exact h
    · rw [bumpCount, if_neg hp, List.map_cons, List.nodup_cons]
      refine ⟨?_, ih h.2⟩
      rw [mem_keys_bumpCount]
      rintro (h2 | h2)
      · exact hp (by simp [h2])
      · exact h.1 h2

lemma find?_of_mem_nodup {α : Type} (key : α → Str) :
    ∀ (l : List α), ((l.map key).Nodup) → ∀ x ∈ l,
      l.find? (fun y => key y == key x) = some x := by
  intro l
  induction l with
  | nil => intro _ x hx; simp at hx
  | cons a t ih =>
    intro hnd x hx
    rw [List.map_cons, List.nodup_cons] at hnd
    rcases List.mem_cons.mp hx with h | h
    · subst h
      simp [List.find?_cons]
    · have hne : (key a == key x) = false := by
        rcases Bool.eq_false_or_eq_true (key a == key x) with h2 | h2
        · have hax : key a = key x := by simpa using h2
          exact absurd (List.mem_map_of_mem key h) (by rw [← hax]; exact hnd.1)
        · exact h2
      simp only [List.find?_cons, hne]
      exact ih hnd.2 x h

lemma lookupCount_foldl_bump (k : Str) : ∀ (ks : List Str) (m : List (Str × Nat)),
    lookupCount (ks.foldl bumpCount m) k = lookupCount m k + ks.count k := by
  intro ks
  induction ks with
  | nil => intro m; simp
  | cons a ks ih =>
    intro m
    rw [List.foldl_cons, ih]
    by_cases h : k = a
    · subst h
      rw [lookupCount_bumpCount_same]
      simp [List.count_cons]
      omega
    · rw [lookupCount_bumpCount_other a k h]
      have hba : (a == k) = false := by
        simp only [beq_eq_false_iff_ne, ne_eq]
        exact fun he => h he.symm
      rw [List.count_cons, hba]
      simp

lemma mem_keys_foldl_bump : ∀ (ks : List Str) (m : List (Str × Nat)) (k : Str),
    k ∈ (ks.foldl bumpCount m).map (fun p => p.1) ↔
      k ∈ ks ∨ k ∈ m.map (fun p => p.1) := by
  intro ks
  induction ks with
  | nil => intro m k; simp
  | cons a ks ih =>
    intro m k
    rw [List.foldl_cons, ih, mem_keys_bumpCount]
    simp only [List.mem_cons]
    tauto

lemma nodup_keys_foldl_bump : ∀ (ks : List Str) (m : List (Str × Nat)),
    (m.map (fun p => p.1)).Nodup →
      ((ks.foldl bumpCount m).map (fun p => p.1)).Nodup := by
  intro ks
  induction ks with
  | nil => intro m h; exact h
  | cons a ks ih =>
    intro m h
    rw [List.foldl_cons]
    exact ih (bumpCount m a) (nodup_keys_bumpCount a m h)

lemma lookupCount_foldl_claims (k : Str) : ∀ (cs : List Claim) (m : List (Str × Nat)),
    lookupCount (cs.foldl (fun m c => c.topicIds.foldl bumpCount m) m) k
      = lookupCount m k + occCount cs k := by
  intro cs
  induction cs with
  | nil => intro m; simp [occCount]
  | cons c cs ih =>
    intro m
    rw [List.foldl_cons, ih, lookupCount_foldl_bump]
    simp only [occCount, List.map_cons, List.sum_cons]
    omega

lemma lookupCount_topicClaimCounts (cs : List Claim) (k : Str) :
    lookupCount (topicClaimCounts cs) k = occCount cs k := by
  rw [topicClaimCounts, lookupCount_foldl_claims]
  simp [lookupCount_nil]

lemma mem_keys_foldl_claims : ∀ (cs : List Claim) (m : List (Str × Nat)) (k : Str),
    k ∈ (cs.foldl (fun m c => c.topicIds.foldl bumpCount m) m).map (fun p => p.1)
      ↔ (∃ c ∈ cs, k ∈ c.topicIds) ∨ k ∈ m.map (fun p => p.1) := by
  intro cs
  induction cs with
  | nil => intro m k; simp
  | cons c cs ih =>
    intro m k
    rw [List.foldl_cons, ih, mem_keys_foldl_bump]
    rw [List.exists_mem_cons_iff]
    constructor
    · rintro (h | h | h)
      · exact Or.inl (Or.inr h)
      · exact Or.inl (Or.inl h)
      · exact Or.inr h
    · rintro ((h | h) | h)
      · exact Or.inr (Or.inl h)
      · exact Or.inl h
      · exact Or.inr (Or.inr h)

lemma nodup_keys_topicClaimCounts (cs : List Claim) :
    ((topicClaimCounts cs).map (fun p => p.1)).Nodup := by
  rw [topicClaimCounts]
  exact (by
    induction cs with
    | nil => intro m h; exact h
    | cons c cs ih =>
      intro m h
      rw [List.foldl_cons]
      exact ih _ (nodup_keys_foldl_bump c.topicIds m h) :
    ∀ m : List (Str × Nat), (m.map (fun p => p.1)).Nodup →
      ((cs.foldl (fun m c => c.topicIds.foldl bumpCount m) m).map
        (fun p => p.1)).Nodup) [] (by simp)

lemma occCount_pos_iff (cs : List Claim) (k : Str) :
    0 < occCount cs k ↔ ∃ c ∈ cs, k ∈ c.topicIds := by
  induction cs with
  | nil => simp [occCount]
  | cons c cs ih =>
    simp only [occCount, List.map_cons, List.sum_cons] at *
    rw [List.exists_mem_cons_iff]
    constructor
    · intro h
      by_cases hc : k ∈ c.topicIds
      · exact Or.inl hc
      · have hcz : c.topicIds.count k = 0 := by
          rw [List.count_eq_zero]
          exact hc
        exact Or.inr (ih.mp (by omega))
    · intro h
      rcases h with h | h
      · have := List.count_pos_iff.mpr h
        omega
      · have := ih.mpr h
        omega

lemma mem_keys_topicClaimCounts (cs : List Claim) (k : Str) :
    k ∈ (topicClaimCounts cs).map (fun p => p.1) ↔ 0 < occCount cs k := by
  rw [topicClaimCounts, mem_keys_foldl_claims, occCount_pos_iff]
  simp

lemma find?_topicClaimCounts (cs : List Claim) (k : Str) (h : 0 < occCount cs k) :
    (topicClaimCounts cs).find? (fun p => p.1 == k) = some (k, occCount cs k) := by
  have hk : k ∈ (topicClaimCounts cs).map (fun p => p.1) :=
    (mem_keys_topicClaimCounts cs k).mpr h
  rcases List.mem_map.mp hk with ⟨p, hp, hpk⟩
  have h0 := find?_of_mem_nodup (fun q => q.1) (topicClaimCounts cs)
    (nodup_keys_topicClaimCounts cs) p hp
  have h1 : (topicClaimCounts cs).find? (fun y => y.1 == p.1) = some p := h0
  rw [hpk] at h1
  have hv : lookupCount (topicClaimCounts cs) k = p.2 := by
    simp only [lookupCount, h1]
  have hocc : p.2 = occCount cs k := by
    rw [← hv, lookupCount_topicClaimCounts]
  obtain ⟨a, b⟩ := p
  simp only at hpk hocc
  rw [hpk, hocc] at h1
  exact h1

/-- The image of a topic under the update loop of `deleteDocument`, stated
per topic: decrement `claimCount` by the counted occurrences when the topic
is referenced and survives, leave it untouched otherwise (orphaned topics
are removed by the later bulk delete, not by the loop). -/
def topicAfter (counts : List (Str × Nat)) (t : Topic) : Topic :=
  match counts.find? (fun p => p.1 == t.id) with
  | none => t
  | some p =>
    if (t.claimCount - (p.2 : ℤ)) ≤ 0 then t
    else ⟨t.id, t.label, t.normalizedLabel, t.claimCount - (p.2 : ℤ),
      max 0 (t.documentCount - 1)⟩

/-- The orphan list collected by the update loop, stated directly: the keys
of `counts` whose topic exists and whose decremented claim count is `≤ 0`. -/
def orphanSet (counts : List (Str × Nat)) (topics0 : List Topic) : List Str :=
  counts.filterMap (fun p =>
    match topics0.find? (fun t => t.id == p.1) with
    | none => none
    | some t => if (t.claimCount - (p.2 : ℤ)) ≤ 0 then some p.1 else none)

lemma topicAfter_id (counts : List (Str × Nat)) (t : Topic) :
    (topicAfter counts t).id = t.id := by
  unfold topicAfter
  cases counts.find? (fun p => p.1 == t.id) with
  | none => rfl
  | some p =>
    dsimp only
    split
    · rfl
    · rfl

lemma applyTopicCount_none (ts : List Topic) (orph : List Str) (k : Str) (n : Nat)
    (h : ts.find? (fun t => t.id == k) = none) :
    applyTopicCount (ts, orph) (k, n) = (ts, orph) := by
  simp only [applyTopicCount, h]

lemma applyTopicCount_orphan (ts : List Topic) (orph : List Str) (k : Str) (n : Nat)
    (t0 : Topic) (h : ts.find? (fun t => t.id == k) = some t0)
    (hle : t0.claimCount - (n : ℤ) ≤ 0) :
    applyTopicCount (ts, orph) (k, n) = (ts, orph ++ [k]) := by
  simp only [applyTopicCount, h, if_pos hle]

lemma applyTopicCount_update (ts : List Topic) (orph : List Str) (k : Str) (n : Nat)
    (t0 : Topic) (h : ts.find? (fun t => t.id == k) = some t0)
    (hgt : ¬ t0.claimCount - (n : ℤ) ≤ 0) :
    applyTopicCount (ts, orph) (k, n)
      = (ts.map (fun t => if t.id == k then
          (⟨t.id, t.label, t.normalizedLabel, t0.claimCount - (n : ℤ),
            max 0 (t.documentCount - 1)⟩ : Topic) else t), orph) := by
  simp only [applyTopicCount, h, if_neg hgt]

lemma find?_map_id_pres (f : Topic → Topic) (hf : ∀ t, (f t).id = t.id) :
    ∀ (l : List Topic) (k : Str),
      (l.map f).find? (fun t => t.id == k) = (l.find? (fun t => t.id == k)).map f := by
  intro l
  induction l with
  | nil => intro k; rfl
  | cons a l ih =>
    intro k
    simp only [List.map_cons, List.find?_cons, hf a]
    cases h : (a.id == k) <;> simp [h, ih]

lemma foldl_applyTopicCount_eq :
    ∀ (counts : List (Str × Nat)) (topics0 : List Topic) (orph0 : List Str),
    ((counts.map (fun p => p.1)).Nodup) →
    ((topics0.map (fun t => t.id)).Nodup) →
    counts.foldl applyTopicCount (topics0, orph0)
      = (topics0.map (topicAfter counts), orph0 ++ orphanSet counts topics0) := by
  intro counts
  induction counts with
  | nil =>
    intro topics0 orph0 _ _
    simp only [List.foldl_nil, orphanSet, List.filterMap_nil, List.append_nil]
    have hmap : topics0.map (topicAfter []) = topics0 := by
      have h1 : topics0.map (topicAfter []) = topics0.map (fun t => t) :=
        List.map_congr_left (fun t _ => rfl)
      rw [h1, List.map_id']
    rw [hmap]
  | cons q rest ih =>
    intro topics0 orph0 hknd htnd
    obtain ⟨k, n⟩ := q
    rw [List.map_cons, List.nodup_cons] at hknd
    rw [List.foldl_cons]
    cases hf : topics0.find? (fun t => t.id == k) with
    | none =>
      rw [applyTopicCount_none topics0 orph0 k n hf, ih topics0 orph0 hknd.2 htnd]
      have hnotin : ∀ t ∈ topics0, ¬ (t.id == k) = true := List.find?_eq_none.mp hf
      have htps : ∀ t ∈ topics0, topicAfter rest t = topicAfter ((k, n) :: rest) t := by
        intro t ht
        have hk : (k == t.id) = false := by
          have h2 : ¬ t.id = k := by simpa using hnotin t ht
          simp only [beq_eq_false_iff_ne, ne_eq]
          exact fun he => h2 he.symm
        unfold topicAfter
        simp only [List.find?_cons, hk]
      have horph : orphanSet ((k, n) :: rest) topics0 = orphanSet rest topics0 := by
        unfold orphanSet
        simp only [List.filterMap_cons, hf]
      rw [horph, List.map_congr_left htps]
    | some t0 =>
      have ht0mem : t0 ∈ topics0 := List.mem_of_find?_eq_some hf
      have ht0id : t0.id = k := by
        have h2 := List.find?_some hf
        simpa using h2
      by_cases hle : t0.claimCount - (n : ℤ) ≤ 0
      · rw [applyTopicCount_orphan topics0 orph0 k n t0 hf hle,
          ih topics0 (orph0 ++ [k]) hknd.2 htnd]
        have horph : orphanSet ((k, n) :: rest) topics0
            = k :: orphanSet rest topics0 := by
          unfold orphanSet
          simp only [List.filterMap_cons, hf, if_pos hle]
        have htps : ∀ t ∈ topics0, topicAfter rest t = topicAfter ((k, n) :: rest) t := by
          intro t ht
          by_cases hid : t.id = k
          · have ht_eq : t = t0 :=
              List.inj_on_of_nodup_map htnd ht ht0mem (by rw [hid, ht0id])
            subst ht_eq
            have hrest : rest.find? (fun p => p.1 == t.id) = none := by
              rw [List.find?_eq_none]
              intro p hp hpt
              apply hknd.1
              have hp1 : p.1 = k := by
                have h3 : p.1 = t.id := by simpa using hpt
                rw [h3, hid]
              rw [← hp1]
              exact List.mem_map_of_mem (fun p => p.1) hp
            have hk1 : (k == t.id) = true := by simp [hid]
            unfold topicAfter
            simp only [hrest, List.find?_cons, hk1]
            rw [if_pos hle]
          · have hk0 : (k == t.id) = false := by
              simp only [beq_eq_false_iff_ne, ne_eq]
              exact fun he => hid he.symm
            unfold topicAfter
            simp only [List.find?_cons, hk0]
        rw [horph, List.map_congr_left htps, List.append_assoc]
        rfl
      · rw [applyTopicCount_update topics0 orph0 k n t0 hf hle]
        set f : Topic → Topic := fun t => if t.id == k then
          (⟨t.id, t.label, t.normalizedLabel, t0.claimCount - (n : ℤ),
            max 0 (t.documentCount - 1)⟩ : Topic) else t with hfdef
        have hfid : ∀ t : Topic, (f t).id = t.id := by
          intro t
          rw [hfdef]
          by_cases h : (t.id == k) = true <;> simp [h]
        have hids : (topics0.map f).map (fun t => t.id)
            = topics0.map (fun t => t.id) := by
          rw [List.map_map]
          exact List.map_congr_left (fun t _ => hfid t)
        have htnd1 : ((topics0.map f).map (fun t => t.id)).Nodup := by
          rw [hids]
          exact htnd
        rw [ih (topics0.map f) orph0 hknd.2 htnd1]
        have htps : (topics0.map f).map (topicAfter rest)
            = topics0.map (topicAfter ((k, n) :: rest)) := by
          rw [List.map_map]
          apply List.map_congr_left
          intro t ht
          by_cases hid : t.id = k
          · have ht_eq : t = t0 :=
              List.inj_on_of_nodup_map htnd ht ht0mem (by rw [hid, ht0id])
            subst ht_eq
            have hbt : (t.id == k) = true := by simp [hid]
            have hft : f t = (⟨t.id, t.label, t.normalizedLabel,
                t.claimCount - (n : ℤ), max 0 (t.documentCount - 1)⟩ : Topic) := by
              rw [hfdef]
              simp [hbt]
            have hrest : rest.find? (fun p => p.1 == (f t).id) = none := by
              rw [List.find?_eq_none]
              intro p hp hpt
              apply hknd.1
              have hp1 : p.1 = k := by
                have h3 : p.1 = (f t).id := by simpa using hpt
                rw [h3, hfid t, hid]
              rw [← hp1]
              exact List.mem_map_of_mem (fun p => p.1) hp
            have hk1 : (k == t.id) = true := by simp [hid]
            show topicAfter rest (f t) = topicAfter ((k, n) :: rest) t
            unfold topicAfter
            simp only [hrest, List.find?_cons, hk1]
            rw [if_neg hle, hft]
          · have hk0 : (k == t.id) = false := by
              simp only [beq_eq_false_iff_ne, ne_eq]
              exact fun he => hid he.symm
            have hbt : (t.id == k) = false := by
              simp only [beq_eq_false_iff_ne, ne_eq]
              exact hid
            have hft : f t = t := by
              rw [hfdef]
              simp [hbt]
            show topicAfter rest (f t) = topicAfter ((k, n) :: rest) t
            rw [hft]
            unfold topicAfter
            simp only [List.find?_cons, hk0]
        have horph : orphanSet rest (topics0.map f)
            = orphanSet ((k, n) :: rest) topics0 := by
          have h1 : orphanSet ((k, n) :: rest) topics0 = orphanSet rest topics0 := by
            unfold orphanSet
            simp only [List.filterMap_cons, hf, if_neg hle]
          have h2 : orphanSet rest (topics0.map f) = orphanSet rest topics0 := by
            unfold orphanSet
            apply List.filterMap_congr
            intro p hp
            have hpk : p.1 ≠ k := by
              intro he
              apply hknd.1
              rw [← he]
              exact List.mem_map_of_mem (fun p => p.1) hp
            rw [find?_map_id_pres f hfid]
            cases hq : topics0.find? (fun t => t.id == p.1) with
            | none => simp [hq]
            | some t1 =>
              have ht1id : t1.id = p.1 := by
                have h3 := List.find?_some hq
                simpa using h3
              have hft1 : f t1 = t1 := by
                rw [hfdef]
                have h4 : (t1.id == k) = false := by
                  simp only [beq_eq_false_iff_ne, ne_eq, ht1id]
                  exact hpk
                simp [h4]
              simp [hq, hft1]
          rw [h2, h1]
        rw [htps, horph]

/-- A topic id is orphaned by the deletion: some stored topic carries it,
the deleted claims reference it, and the decremented claim count is `≤ 0`. -/
def orphanedBy (deleted : List Claim) (topics0 : List Topic) (e : Str) : Prop :=
  ∃ t ∈ topics0, t.id = e ∧ 0 < occCount deleted e ∧
    t.claimCount - (occCount deleted e : ℤ) ≤ 0

lemma mem_orphanSet_iff (deleted : List Claim) (topics0 : List Topic)
    (htnd : (topics0.map (fun t => t.id)).Nodup) (e : Str) :
    e ∈ orphanSet (topicClaimCounts deleted) topics0 ↔
      orphanedBy deleted topics0 e := by
  unfold orphanSet orphanedBy
  rw [List.mem_filterMap]
  constructor
  · rintro ⟨p, hp, hpe⟩
    cases hq : topics0.find? (fun t => t.id == p.1) with
    | none =>
      simp only [hq] at hpe
      exact Option.noConfusion hpe
    | some t =>
      by_cases hc : t.claimCount - (p.2 : ℤ) ≤ 0
      · simp only [hq, if_pos hc] at hpe
        have hpe1 : p.1 = e := by simpa using hpe
        have hkey : p.1 ∈ (topicClaimCounts deleted).map (fun p => p.1) :=
          List.mem_map_of_mem (fun p => p.1) hp
        have hpos : 0 < occCount deleted p.1 :=
          (mem_keys_topicClaimCounts deleted p.1).mp hkey
        have hfind := find?_of_mem_nodup (fun q => q.1) (topicClaimCounts deleted)
          (nodup_keys_topicClaimCounts deleted) p hp
        have hfind1 : (topicClaimCounts deleted).find? (fun y => y.1 == p.1) = some p :=
          hfind
        have hv : lookupCount (topicClaimCounts deleted) p.1 = p.2 := by
          simp only [lookupCount, hfind1]
        have hocc : p.2 = occCount deleted p.1 := by
          rw [← hv, lookupCount_topicClaimCounts]
        have htid : t.id = p.1 := by
          have h3 := List.find?_some hq
          simpa using h3
        refine ⟨t, List.mem_of_find?_eq_some hq, ?_, ?_, ?_⟩
        · rw [htid, hpe1]
        · rw [← hpe1]
          exact hpos
        · rw [← hpe1, ← hocc]
          exact hc
      · simp only [hq, if_neg hc] at hpe
        exact Option.noConfusion hpe
  · rintro ⟨t, ht, hid, hpos, hle⟩
    refine ⟨(e, occCount deleted e), ?_, ?_⟩
    · exact List.mem_of_find?_eq_some (find?_topicClaimCounts deleted e hpos)
    · have hfind := find?_of_mem_nodup (fun t : Topic => t.id) topics0 htnd t ht
      have hfind1 : topics0.find? (fun y => y.id == t.id) = some t := hfind
      rw [hid] at hfind1
      simp only [hfind1, if_pos hle]

lemma accOf_eq (id : Str) (db : DB)
    (hT : (db.topics.map (fun t => t.id)).Nodup) :
    accOf id db
      = (db.topics.map (topicAfter (topicClaimCounts (deletedClaimsOf id db))),
         orphanSet (topicClaimCounts (deletedClaimsOf id db)) db.topics) := by
  unfold accOf
  rw [foldl_applyTopicCount_eq _ _ _ (nodup_keys_topicClaimCounts _) hT]
  rw [List.nil_append]

lemma contains_iff_mem_str (l : List Str) (e : Str) :
    l.contains e = true ↔ e ∈ l :=
  List.elem_iff

lemma deleteDocument_documents (id : Str) (db : DB) :
    (deleteDocument id db).documents
      = db.documents.filter (fun d => ¬ d.id == id) := rfl

lemma deleteDocument_textChunks (id : Str) (db : DB) :
    (deleteDocument id db).textChunks
      = db.textChunks.filter (fun ch => ¬ ch.documentId == id) := rfl

lemma deleteDocument_claims (id : Str) (db : DB) :
    (deleteDocument id db).claims
      = db.claims.filter (fun c => ¬ c.documentId == id) := rfl

lemma deleteDocument_topics_eq (id : Str) (db : DB)
    (hT : (db.topics.map (fun t => t.id)).Nodup) :
    (deleteDocument id db).topics
      = (db.topics.map (topicAfter (topicClaimCounts (deletedClaimsOf id db)))).filter
          (fun t => ¬ (orphanSet (topicClaimCounts (deletedClaimsOf id db))
            db.topics).contains t.id) := by
  show (if (accOf id db).2.isEmpty then (accOf id db).1
      else (accOf id db).1.filter (fun t => ¬ (accOf id db).2.contains t.id)) = _
  rw [accOf_eq id db hT]
  by_cases h : (orphanSet (topicClaimCounts (deletedClaimsOf id db)) db.topics).isEmpty
    = true
  · have h0 : orphanSet (topicClaimCounts (deletedClaimsOf id db)) db.topics = [] :=
      List.isEmpty_iff.mp h
    rw [h0]
    simp
  · rw [if_neg (by simpa using h)]

lemma deleteDocument_rels_eq (id : Str) (db : DB)
    (hT : (db.topics.map (fun t => t.id)).Nodup) :
    (deleteDocument id db).topicRelationships
      = db.topicRelationships.filter
          (fun r => ¬ ((orphanSet (topicClaimCounts (deletedClaimsOf id db))
              db.topics).contains r.sourceId ||
            (orphanSet (topicClaimCounts (deletedClaimsOf id db))
              db.topics).contains r.targetId)) := by
  show (if (accOf id db).2.isEmpty then db.topicRelationships
      else db.topicRelationships.filter
        (fun r => ¬ ((accOf id db).2.contains r.sourceId ||
          (accOf id db).2.contains r.targetId))) = _
  rw [accOf_eq id db hT]
  by_cases h : (orphanSet (topicClaimCounts (deletedClaimsOf id db)) db.topics).isEmpty
    = true
  · have h0 : orphanSet (topicClaimCounts (deletedClaimsOf id db)) db.topics = [] :=
      List.isEmpty_iff.mp h
    rw [h0]
    simp
  · rw [if_neg (by simpa using h)]

lemma occCount_filter_split (p : Claim → Bool) (cs : List Claim) (k : Str) :
    occCount cs k = occCount (cs.filter p) k
      + occCount (cs.filter (fun c => ¬ p c)) k := by
  induction cs with
  | nil => rfl
  | cons c cs ih =>
    simp only [List.filter_cons]
    by_cases h : p c = true
    · rw [if_pos h, if_neg (by simp [h])]
      simp only [occCount, List.map_cons, List.sum_cons]
      simp only [occCount] at ih
      omega
    · rw [if_neg h, if_pos (by simp [h])]
      simp only [occCount, List.map_cons, List.sum_cons]
      simp only [occCount] at ih
      omega

/-- C7 (amended): `deleteDocument` removes the document together with all of
its chunks and claims. For every stored topic, let `occ` be the number of
occurrences of its id among the deleted claims' `topicIds` lists (a claim
listing the id twice counts twice; this equals the number of deleted claims
referencing the topic exactly when no deleted claim repeats it). If the
topic is referenced and `claimCount - occ ≤ 0`, the topic is deleted and no
surviving relationship has it as an endpoint; if it is referenced and
`claimCount - occ > 0`, it survives with `claimCount` decremented by `occ`
and `documentCount` decremented by 1 floored at 0; an unreferenced topic
survives unchanged. A stored relationship survives iff neither endpoint id
is orphaned. When every stored relationship endpoint names a stored topic,
surviving relationships have both endpoints among the surviving topics; and
when topic claim counts agree with the stored claims and every claim's
topic ids name stored topics, surviving claims reference only surviving
topics. Topic ids are assumed pairwise distinct. -/
theorem deleteDocument_spec (db : DB) (id : Str)
    (hT : (db.topics.map (fun t => t.id)).Nodup) :
    (deleteDocument id db).documents = db.documents.filter (fun d => ¬ d.id == id) ∧
    (deleteDocument id db).textChunks
      = db.textChunks.filter (fun ch => ¬ ch.documentId == id) ∧
    (deleteDocument id db).claims
      = db.claims.filter (fun c => ¬ c.documentId == id) ∧
    (∀ t ∈ db.topics, 0 < occCount (deletedClaimsOf id db) t.id →
      t.claimCount - (occCount (deletedClaimsOf id db) t.id : ℤ) ≤ 0 →
      (∀ t' ∈ (deleteDocument id db).topics, t'.id ≠ t.id) ∧
      (∀ r ∈ (deleteDocument id db).topicRelationships,
        r.sourceId ≠ t.id ∧ r.targetId ≠ t.id)) ∧
    (∀ t ∈ db.topics, 0 < occCount (deletedClaimsOf id db) t.id →
      0 < t.claimCount - (occCount (deletedClaimsOf id db) t.id : ℤ) →
      (⟨t.id, t.label, t.normalizedLabel,
        t.claimCount - (occCount (deletedClaimsOf id db) t.id : ℤ),
        max 0 (t.documentCount - 1)⟩ : Topic) ∈ (deleteDocument id db).topics) ∧
    (∀ t ∈ db.topics, occCount (deletedClaimsOf id db) t.id = 0 →
      t ∈ (deleteDocument id db).topics) ∧
    (∀ r ∈ db.topicRelationships,
      ((¬ orphanedBy (deletedClaimsOf id db) db.topics r.sourceId ∧
        ¬ orphanedBy (deletedClaimsOf id db) db.topics r.targetId) ↔
       r ∈ (deleteDocument id db).topicRelationships)) ∧
    ((∀ r ∈ db.topicRelationships,
        (∃ t ∈ db.topics, t.id = r.sourceId) ∧ (∃ t ∈ db.topics, t.id = r.targetId)) →
      ∀ r ∈ (deleteDocument id db).topicRelationships,
        (∃ t ∈ (deleteDocument id db).topics, t.id = r.sourceId) ∧
        (∃ t ∈ (deleteDocument id db).topics, t.id = r.targetId)) ∧
    ((∀ t ∈ db.topics, t.claimCount = (occCount db.claims t.id : ℤ)) →
      (∀ c ∈ db.claims, ∀ e ∈ c.topicIds, ∃ t ∈ db.topics, t.id = e) →
      ∀ c ∈ (deleteDocument id db).claims, ∀ e ∈ c.topicIds,
        ∃ t ∈ (deleteDocument id db).topics, t.id = e) := by
  have htops := deleteDocument_topics_eq id db hT
  have hrels := deleteDocument_rels_eq id db hT
  have hcont : ∀ e, (orphanSet (topicClaimCounts (deletedClaimsOf id db))
      db.topics).contains e = true ↔ orphanedBy (deletedClaimsOf id db) db.topics e :=
    fun e => (contains_iff_mem_str _ e).trans
      (mem_orphanSet_iff (deletedClaimsOf id db) db.topics hT e)
  have hnotorph : ∀ t ∈ db.topics,
      ¬ orphanedBy (deletedClaimsOf id db) db.topics t.id →
      topicAfter (topicClaimCounts (deletedClaimsOf id db)) t
        ∈ (deleteDocument id db).topics := by
    intro t ht hno
    rw [htops, List.mem_filter]
    constructor
    · exact List.mem_map_of_mem _ ht
    · have hcf : (orphanSet (topicClaimCounts (deletedClaimsOf id db))
          db.topics).contains (topicAfter (topicClaimCounts (deletedClaimsOf id db)) t).id
          = false := by
        rw [topicAfter_id]
        cases hx : (orphanSet (topicClaimCounts (deletedClaimsOf id db))
            db.topics).contains t.id with
        | false => rfl
        | true => exact absurd ((hcont t.id).mp hx) hno
      simp only [decide_eq_true_eq, hcf]
      simp
  refine ⟨rfl, rfl, rfl, ?_, ?_, ?_, ?_, ?_, ?_⟩
  · -- orphaned topics disappear together with their relationships
    intro t ht hpos hle
    have horph : orphanedBy (deletedClaimsOf id db) db.topics t.id :=
      ⟨t, ht, rfl, hpos, hle⟩
    have hct := (hcont t.id).mpr horph
    constructor
    · intro t' ht' heq
      rw [htops, List.mem_filter] at ht'
      have hpred := ht'.2
      rw [heq, hct] at hpred
      simp at hpred
    · intro r hr
      rw [hrels, List.mem_filter] at hr
      have hpred := hr.2
      constructor
      · intro heq
        rw [heq, hct] at hpred
        simp at hpred
      · intro heq
        rw [heq, hct] at hpred
        simp at hpred
  · -- surviving referenced topics are decremented
    intro t ht hpos hgt
    have hno : ¬ orphanedBy (deletedClaimsOf id db) db.topics t.id := by
      rintro ⟨t2, ht2, hid2, _, hle2⟩
      have ht2t : t2 = t := List.inj_on_of_nodup_map hT ht2 ht hid2
      rw [ht2t] at hle2
      omega
    have himg : topicAfter (topicClaimCounts (deletedClaimsOf id db)) t
        = ⟨t.id, t.label, t.normalizedLabel,
            t.claimCount - (occCount (deletedClaimsOf id db) t.id : ℤ),
            max 0 (t.documentCount - 1)⟩ := by
      unfold topicAfter
      have hfind := find?_topicClaimCounts (deletedClaimsOf id db) t.id hpos
      simp only [hfind]
      rw [if_neg (by omega)]
    rw [← himg]
    exact hnotorph t ht hno
  · -- unreferenced topics survive unchanged
    intro t ht h0
    have hno : ¬ orphanedBy (deletedClaimsOf id db) db.topics t.id := by
      rintro ⟨t2, ht2, hid2, hpos2, _⟩
      omega
    have himg : topicAfter (topicClaimCounts (deletedClaimsOf id db)) t = t := by
      unfold topicAfter
      have hfind : (topicClaimCounts (deletedClaimsOf id db)).find?
          (fun p => p.1 == t.id) = none := by
        rw [List.find?_eq_none]
        intro p hp hpt
        have hkey : p.1 ∈ (topicClaimCounts (deletedClaimsOf id db)).map
            (fun p => p.1) := List.mem_map_of_mem (fun p => p.1) hp
        have hpos2 := (mem_keys_topicClaimCounts (deletedClaimsOf id db) p.1).mp hkey
        have hp1 : p.1 = t.id := by simpa using hpt
        rw [hp1] at hpos2
        omega
      simp only [hfind]
    rw [← himg]
    exact hnotorph t ht hno
  · -- relationship survival is exactly non-orphanhood of both endpoints
    intro r hr
    rw [hrels, List.mem_filter]
    constructor
    · rintro ⟨hns, hnt⟩
      refine ⟨hr, ?_⟩
      have hs : (orphanSet (topicClaimCounts (deletedClaimsOf id db))
          db.topics).contains r.sourceId = false := by
        cases hx : (orphanSet (topicClaimCounts (deletedClaimsOf id db))
            db.topics).contains r.sourceId with
        | false => rfl
        | true => exact absurd ((hcont r.sourceId).mp hx) hns
      have hg : (orphanSet (topicClaimCounts (deletedClaimsOf id db))
          db.topics).contains r.targetId = false := by
        cases hx : (orphanSet (topicClaimCounts (deletedClaimsOf id db))
            db.topics).contains r.targetId with
        | false => rfl
        | true => exact absurd ((hcont r.targetId).mp hx) hnt
      simp only [hs, hg, Bool.or_self, decide_eq_true_eq]
      simp
    · rintro ⟨_, hpred⟩
      simp only [Bool.or_eq_true, decide_eq_true_eq] at hpred
      constructor
      · intro hcontra
        exact hpred (Or.inl ((hcont r.sourceId).mpr hcontra))
      · intro hcontra
        exact hpred (Or.inr ((hcont r.targetId).mpr hcontra))
  · -- no dangling relationship endpoints
    intro hR r hrres
    have hrres' := hrres
    rw [hrels, List.mem_filter] at hrres'
    obtain ⟨hrdb, hpred⟩ := hrres'
    simp only [Bool.or_eq_true, decide_eq_true_eq] at hpred
    obtain ⟨⟨ts, hts, htsid⟩, ⟨tt, htt, httid⟩⟩ := hR r hrdb
    constructor
    · refine ⟨topicAfter (topicClaimCounts (deletedClaimsOf id db)) ts, ?_, ?_⟩
      · refine hnotorph ts hts ?_
        intro hcontra
        rw [htsid] at hcontra
        exact hpred (Or.inl ((hcont r.sourceId).mpr hcontra))
      · rw [topicAfter_id, htsid]
    · refine ⟨topicAfter (topicClaimCounts (deletedClaimsOf id db)) tt, ?_, ?_⟩
      · refine hnotorph tt htt ?_
        intro hcontra
        rw [httid] at hcontra
        exact hpred (Or.inr ((hcont r.targetId).mpr hcontra))
      · rw [topicAfter_id, httid]
  · -- no dangling claim-to-topic references
    intro hCC hRT c hc e he
    have hc' := hc
    rw [deleteDocument_claims, List.mem_filter] at hc'
    obtain ⟨hcdb, hcpred⟩ := hc'
    obtain ⟨t, ht, htid⟩ := hRT c hcdb e he
    refine ⟨topicAfter (topicClaimCounts (deletedClaimsOf id db)) t, ?_, ?_⟩
    · refine hnotorph t ht ?_
      rintro ⟨t2, ht2, hid2, hpos2, hle2⟩
      have ht2t : t2 = t := List.inj_on_of_nodup_map hT ht2 ht hid2
      have hsplit : occCount db.claims t.id
          = occCount (db.claims.filter (fun c => c.documentId == id)) t.id
            + occCount (db.claims.filter (fun c => ¬ c.documentId == id)) t.id :=
        occCount_filter_split (fun c => c.documentId == id) db.claims t.id
      have hsurv : 0 < occCount (db.claims.filter
          (fun c => ¬ c.documentId == id)) t.id := by
        refine (occCount_pos_iff _ t.id).mpr ⟨c, ?_, ?_⟩
        · exact List.mem_filter.mpr ⟨hcdb, hcpred⟩
        · rw [htid]
          exact he
      have hccv := hCC t ht
      rw [ht2t] at hle2
      have hdel : occCount (deletedClaimsOf id db) t.id
          = occCount (db.claims.filter (fun c => c.documentId == id)) t.id := rfl
      rw [hdel] at hle2
      omega
    · rw [topicAfter_id, htid]

/-- C7 witness: on the concrete database the topic referenced twice by the
deleted document's single claim survives with `claimCount` 5 − 2 = 3 and
`documentCount` 1. -/
theorem deleteDocument_spec_witness :
    ((c7ExDb.topics.map (fun t => t.id)).Nodup) ∧
    (⟨"t".toList, "T".toList, "t".toList, 3, 1⟩ : Topic)
      ∈ (deleteDocument "d".toList c7ExDb).topics := by
  refine ⟨by decide, ?_⟩
  have h := (deleteDocument_spec c7ExDb "d".toList (by decide)).2.2.2.2.1
  have h2 := h ⟨"t".toList, "T".toList, "t".toList, 5, 2⟩ (by decide)
    (by decide) (by decide)
  exact h2

end KG
